import Mathlib

/-!
# Pipeline executor (`swish_funcs.c`) and word-length counter (`par_word_lengths.c`)

A shallow embedding of the two C sources.

* Descriptors are integers (`Int`), as in C.  A process's descriptor table is an
  association list from descriptor to the open object it refers to.
* The operating system is an explicit environment: which `pipe()` and `fork()`
  calls succeed, what `wait()` stores, and which descriptors are open on entry.
* `close` fails with `-1` exactly on a descriptor that is not open in the
  calling process; `pipe` and `dup` hand out the lowest unused descriptor.
* A read of the `pipes` array outside its bounds makes the model return `none`.
* Loops over token indices are given fuel; the results show it is never exhausted.
* For `count_word_lengths` a file is the list of its bytes, `int` arithmetic is
  reduced to 32 bits, and a write outside an array makes the model return `none`.
-/

set_option autoImplicit false

namespace Swish

/-! ## Descriptor tables -/

/-- What an open descriptor refers to. -/
inductive Obj
  | inherited (fd : Nat)
  | pipeRead (chan : Nat)
  | pipeWrite (chan : Nat)
deriving DecidableEq, Repr

/-- Is the object one of the two ends of a channel made by `pipe()`? -/
def Obj.isEndpoint : Obj → Bool
  | .inherited _ => false
  | .pipeRead _ => true
  | .pipeWrite _ => true

/-- The descriptor table of one process. -/
abbrev FdTable := List (Int × Obj)

def isOpen (t : FdTable) (fd : Int) : Bool :=
  t.any (fun e => e.1 == fd)

def lookupFd (t : FdTable) (fd : Int) : Option Obj :=
  (t.find? (fun e => e.1 == fd)).map (fun e => e.2)

/-- Search upwards from `n` for a descriptor that is not open. -/
def lowestFreeFrom (t : FdTable) : Nat → Int → Int
  | 0, n => n
  | k + 1, n => if isOpen t n then lowestFreeFrom t k (n + 1) else n

/-- The lowest descriptor that is not open (what `pipe` and `dup` hand out). -/
def lowestFree (t : FdTable) : Int :=
  lowestFreeFrom t t.length 0

/-- Model of `close(fd)`: result and new table. -/
def sys_close (t : FdTable) (fd : Int) : Int × FdTable :=
  if isOpen t fd then (0, t.filter (fun e => e.1 != fd)) else (-1, t)

/-- Model of a successful `pipe()` creating channel `chan`:
read descriptor, write descriptor, new table. -/
def sys_pipe (t : FdTable) (chan : Nat) : Int × Int × FdTable :=
  let r := lowestFree t
  let t1 := t ++ [(r, Obj.pipeRead chan)]
  let w := lowestFree t1
  (r, w, t1 ++ [(w, Obj.pipeWrite chan)])

/-- Model of `dup(fd)`. -/
def sys_dup (t : FdTable) (fd : Int) : Int × FdTable :=
  match lookupFd t fd with
  | none => (-1, t)
  | some o => let n := lowestFree t; (n, t ++ [(n, o)])

/-- Model of `dup2(oldfd, newfd)`. -/
def sys_dup2 (t : FdTable) (oldfd newfd : Int) : Int × FdTable :=
  match lookupFd t oldfd with
  | none => (-1, t)
  | some o =>
    if newfd < 0 then (-1, t)
    else if oldfd = newfd then (newfd, t)
    else (newfd, t.filter (fun e => e.1 != newfd) ++ [(newfd, o)])

def STDIN_FILENO : Int := 0
def STDOUT_FILENO : Int := 1
def EXIT_SUCCESS : Nat := 0

/-! ## Wait statuses -/

/-- The disposition of a finished child as reported through `wait`. -/
inductive WaitStatus
  | exited (code : Nat)
  | signaled (sig : Nat)
deriving DecidableEq, Repr

def WIFEXITED : WaitStatus → Bool
  | .exited _ => true
  | .signaled _ => false

def WEXITSTATUS : WaitStatus → Nat
  | .exited c => c
  | .signaled _ => 0

/-! ## The environment -/

/-- Everything the operating system decides. -/
structure Env where
  /-- Descriptors open in the calling process on entry. -/
  openFds : List Nat
  /-- Does the `k`-th call of `pipe()` succeed? -/
  pipeOk : Nat → Bool
  /-- Does the `k`-th call of `fork()` succeed? -/
  forkOk : Nat → Bool
  /-- The status stored by the `k`-th call of `wait()` that collects a child. -/
  waitStatus : Nat → WaitStatus
  /-- The indeterminate initial value of the local `status`. -/
  status0 : WaitStatus

/-- The descriptor table of the calling process on entry. -/
def Env.initTable (env : Env) : FdTable :=
  env.openFds.map (fun n => (Int.ofNat n, Obj.inherited n))

/-! ## `run_piped_command` (runs in the child) -/

/-- Trace of one call of `run_piped_command`. -/
structure PipedRun where
  /-- The descriptor table at the moment `run_command` is called. -/
  atRunCommand : FdTable
  /-- The value returned, or `none` when `run_command` never returns
  (the process image was replaced). -/
  result : Option Int
  /-- The descriptor table when the function returns. -/
  fds : FdTable

/-- Model of `run_piped_command`.  `rc` is what the external `run_command` does:
`some v` when it returns `v`, `none` when it does not return.  The parameters
`pipes` and `n_pipes` of the C function are never used by its body. -/
def run_piped_command (rc : Option Int) (t : FdTable) (in_idx out_idx : Int) : PipedRun :=
  let (stdin_copy, t1) := sys_dup t STDIN_FILENO
  let (stdout_copy, t2) := sys_dup t1 STDOUT_FILENO
  let t3 :=
    if in_idx ≠ STDIN_FILENO then
      (sys_close (sys_dup2 t2 in_idx STDIN_FILENO).2 in_idx).2
    else t2
  let t4 :=
    if out_idx ≠ STDOUT_FILENO then
      (sys_close (sys_dup2 t3 out_idx STDOUT_FILENO).2 out_idx).2
    else t3
  match rc with
  | none => { atRunCommand := t4, result := none, fds := t4 }
  | some v =>
    if v = -1 then { atRunCommand := t4, result := some (-1), fds := t4 }
    else
      let t5 := (sys_dup2 t4 stdin_copy STDIN_FILENO).2
      let t6 := (sys_dup2 t5 stdout_copy STDOUT_FILENO).2
      let t7 := (sys_close t6 stdin_copy).2
      let t8 := (sys_close t7 stdout_copy).2
      { atRunCommand := t4, result := some 0, fds := t8 }

/-! ## `run_pipelined_commands` -/

/-- One forked child: what the `pid == 0` branch starts from. -/
structure Launch where
  cmd_tokens : List String
  in_idx : Int
  out_idx : Int
  /-- The descriptor table the child inherits: a copy of the parent's at `fork`. -/
  fds : FdTable
deriving DecidableEq, Repr

/-- How the `pid == 0` branch of the launch loop ends. -/
inductive ChildEnd
  /-- The child called `exit(code)`. -/
  | exited (code : Nat)
  /-- The child executed `return v` in `run_pipelined_commands`:
  control goes back to the caller, inside the child process. -/
  | returned (v : Int)
  /-- The external `run_command` replaced the process image. -/
  | replaced
deriving DecidableEq, Repr

/-- The `pid == 0` branch: call `run_piped_command`; `return -1` if it reports
`-1`, otherwise `exit(EXIT_SUCCESS)`. -/
def child_branch (rc : Option Int) (l : Launch) : ChildEnd :=
  match (run_piped_command rc l.fds l.in_idx l.out_idx).result with
  | none => ChildEnd.replaced
  | some r => if r = -1 then ChildEnd.returned (-1) else ChildEnd.exited EXIT_SUCCESS

/-- First loop: count the `"|"` tokens. -/
def countPipes : List String → Nat
  | [] => 0
  | t :: ts => if t = "|" then countPipes ts + 1 else countPipes ts

/-- Second loop: `pipe(pipes + 2*i)` for `i < num_pipes`.  `Except.error t` is the
early `return -1`, with the table `t` the parent has at that point. -/
def createPipes (env : Env) : Nat → Nat → FdTable → List Int → Except FdTable (List Int × FdTable)
  | 0, _, t, pipes => Except.ok (pipes, t)
  | k + 1, i, t, pipes =>
    if env.pipeOk i then
      let r := sys_pipe t i
      createPipes env k (i + 1) r.2.2 (pipes ++ [r.1, r.2.1])
    else Except.error t

/-- Inner loop: advance `cmd_end` to the next `"|"` or to the end.  The list is
the tokens from `cmd_end` on. -/
def findEnd : List String → Nat → Nat
  | [], e => e
  | t :: ts, e => if t = "|" then e else findEnd ts (e + 1)

/-- The loop in the child copying `tokens->data[cmd_start .. cmd_end)`. -/
def copyTokens (tokens : List String) (cmd_start cmd_end : Nat) : List String :=
  (tokens.drop cmd_start).take (cmd_end - cmd_start)

/-- Parent-side state of the launch loop. -/
structure PState where
  i : Nat
  cmd_start : Nat
  cmd_end : Nat
  fds : FdTable
  children : List Launch
deriving DecidableEq, Repr

/-- Parent side of one iteration after a successful `fork`: the two `close` calls,
then `cmd_start = cmd_end + 1; i++`.  `false` is `return -1`. -/
def parentAfterFork (tokens : List String) (pipes : List Int) (s : PState) (cmd_end : Nat)
    (children : List Launch) : Option (Bool × PState) :=
  let afterFirst : Option (Bool × FdTable) :=
    if s.i > 0 then
      match pipes[2 * (s.i - 1)]? with
      | none => none
      | some fd =>
        let r := sys_close s.fds fd
        if r.1 = -1 then some (false, r.2) else some (true, r.2)
    else some (true, s.fds)
  match afterFirst with
  | none => none
  | some (false, t) =>
    some (false, { i := s.i, cmd_start := s.cmd_start, cmd_end := cmd_end, fds := t,
                   children := children })
  | some (true, t) =>
    if cmd_end < tokens.length then
      match pipes[2 * s.i + 1]? with
      | none => none
      | some fd =>
        let r := sys_close t fd
        if r.1 = -1 then
          some (false, { i := s.i, cmd_start := s.cmd_start, cmd_end := cmd_end, fds := r.2,
                         children := children })
        else
          some (true, { i := s.i + 1, cmd_start := cmd_end + 1, cmd_end := cmd_end, fds := r.2,
                        children := children })
    else
      some (true, { i := s.i + 1, cmd_start := cmd_end + 1, cmd_end := cmd_end, fds := t,
                    children := children })

/-- One iteration of `while (cmd_end < tokens->length)`, as seen by the parent.
`some (true, s)`: go round again; `some (false, s)`: `return -1`;
`none`: a read outside the `pipes` array. -/
def launchStep (env : Env) (tokens : List String) (pipes : List Int) (s : PState) :
    Option (Bool × PState) :=
  let cmd_end := findEnd (tokens.drop s.cmd_start) s.cmd_start
  let failed : PState :=
    { i := s.i, cmd_start := s.cmd_start, cmd_end := cmd_end, fds := s.fds,
      children := s.children }
  let out : Option Int :=
    if cmd_end < tokens.length then pipes[2 * s.i + 1]? else some STDOUT_FILENO
  match out with
  | none => none
  | some out_idx =>
    if cmd_end < tokens.length ∧ out_idx = -1 then some (false, failed)
    else
      let inp : Option Int :=
        if s.i > 0 then pipes[2 * (s.i - 1)]? else some STDIN_FILENO
      match inp with
      | none => none
      | some in_idx =>
        if s.i > 0 ∧ in_idx = -1 then some (false, failed)
        else if env.forkOk s.i then
          let child : Launch :=
            { cmd_tokens := copyTokens tokens s.cmd_start cmd_end, in_idx := in_idx,
              out_idx := out_idx, fds := s.fds }
          parentAfterFork tokens pipes s cmd_end (s.children ++ [child])
        else some (false, failed)

/-- The launch loop `while (cmd_end < tokens->length)`.  `some (true, s)`: the loop
ran to its end; `some (false, s)`: `return -1`; `none`: out of fuel or a read
outside the `pipes` array. -/
def launchLoop (env : Env) (tokens : List String) (pipes : List Int) :
    Nat → PState → Option (Bool × PState)
  | 0, s => if s.cmd_end < tokens.length then none else some (true, s)
  | fuel + 1, s =>
    if s.cmd_end < tokens.length then
      match launchStep env tokens pipes s with
      | none => none
      | some (false, s1) => some (false, s1)
      | some (true, s1) => launchLoop env tokens pipes fuel s1
    else some (true, s)

/-- The wait loop: `k` iterations left, `w` calls of `wait` made so far, `st` the
current value of `status`.  A `wait` with no child left to collect fails and leaves
`status` alone.  Result: did the loop run to its end, and the number of calls. -/
def waitLoop (env : Env) (nchildren : Nat) : Nat → Nat → WaitStatus → Bool × Nat
  | 0, w, _ => (true, w)
  | k + 1, w, st =>
    let st1 := if w < nchildren then env.waitStatus w else st
    if WIFEXITED st1 then
      if WEXITSTATUS st1 ≠ 0 then (false, w + 1)
      else waitLoop env nchildren k (w + 1) st1
    else (false, w + 1)

/-- The final loop `for (i = start; i < num_pipes * 2; i++) close(pipes[i])`, with
`k` iterations left.  `false` is `return -1`. -/
def closeLoop (pipes : List Int) : Nat → Nat → FdTable → Option (Bool × FdTable)
  | 0, _, t => some (true, t)
  | k + 1, i, t =>
    match pipes[i]? with
    | none => none
    | some fd =>
      let r := sys_close t fd
      if r.1 = -1 then some (false, r.2) else closeLoop pipes k (i + 1) r.2

/-- What the parent has when `run_pipelined_commands` returns. -/
structure Ret where
  /-- The returned value. -/
  value : Int
  /-- The parent's descriptor table at the return. -/
  fds : FdTable
  /-- The contents of the `pipes` array. -/
  pipes : List Int
  /-- The children forked, in launch order. -/
  children : List Launch
  /-- The number of calls of `wait`. -/
  waits : Nat
deriving DecidableEq, Repr

/-- The part of `run_pipelined_commands` after the launch loop: the wait loop and the
final closing loop. -/
def collectAndClose (env : Env) (num_pipes : Nat) (pipes : List Int) (s : PState) :
    Option Ret :=
  match waitLoop env s.children.length (num_pipes + 1) 0 env.status0 with
  | (false, w) =>
    some { value := -1, fds := s.fds, pipes := pipes, children := s.children, waits := w }
  | (true, w) =>
    let start := if num_pipes = 1 then 2 else 4
    match closeLoop pipes (num_pipes * 2 - start) start s.fds with
    | none => none
    | some (false, t1) =>
      some { value := -1, fds := t1, pipes := pipes, children := s.children, waits := w }
    | some (true, t1) =>
      some { value := 0, fds := t1, pipes := pipes, children := s.children, waits := w }

/-- Model of `run_pipelined_commands`, parent side.  `none`: the model ran out of
fuel or read outside the `pipes` array. -/
def run_pipelined_commands (env : Env) (tokens : List String) : Option Ret :=
  let num_pipes := countPipes tokens
  match createPipes env num_pipes 0 env.initTable [] with
  | Except.error t =>
    some { value := -1, fds := t, pipes := [], children := [], waits := 0 }
  | Except.ok (pipes, t) =>
    match launchLoop env tokens pipes (tokens.length + 1)
        { i := 0, cmd_start := 0, cmd_end := 0, fds := t, children := [] } with
    | none => none
    | some (false, s) =>
      some { value := -1, fds := s.fds, pipes := pipes, children := s.children, waits := 0 }
    | some (true, s) => collectAndClose env num_pipes pipes s

/-- The outcome of a stage that makes the pipeline fail: a normal exit with a
non-zero code, or an abnormal termination. -/
def WaitStatus.isFailure : WaitStatus → Bool
  | .exited c => c != 0
  | .signaled _ => true

/-! ## Standard environments -/

/-- Every `pipe` and `fork` succeeds and every child exits with code 0; standard
input, output and error are open on entry. -/
def okEnv : Env :=
  { openFds := [0, 1, 2], pipeOk := fun _ => true, forkOk := fun _ => true,
    waitStatus := fun _ => WaitStatus.exited 0, status0 := WaitStatus.exited 0 }

/-! ## Invariants and auxiliary notions used in the proofs -/

/-- The channel endpoint whose descriptor the calls `pipe(pipes + 2*k)` store at
position `j` of the array: the read end of channel `j / 2` at an even position, its
write end at an odd one. -/
def endpointAt (j : Nat) : Obj :=
  if j % 2 = 0 then Obj.pipeRead (j / 2) else Obj.pipeWrite (j / 2)

/-- The `pipes` array holds distinct, non-negative descriptors, each open in `t` on
the endpoint of its position, and every channel endpoint in `t` is reached through one
of them. -/
def PipesInv (t : FdTable) (pipes : List Int) : Prop :=
  (∀ j fd, pipes[j]? = some fd → lookupFd t fd = some (endpointAt j)) ∧ pipes.Nodup ∧
    (∀ fd ∈ pipes, 0 ≤ fd) ∧ (∀ e ∈ t, e.2.isEndpoint = true → e.1 ∈ pipes)

/-- The positions of the `pipes` array whose descriptor the parent still holds open
when stage `i` is about to be launched: the read end of channel `i - 1` and both
ends of the channels from `i` on. -/
def LiveAt (i j : Nat) : Prop :=
  (0 < i ∧ j = 2 * (i - 1)) ∨ 2 * i ≤ j

/-- Table invariant of the launch loop: the descriptors at the positions selected by
`L` are open on the endpoint of their position, and every channel endpoint in the table
is reached through one of them. -/
def TInvP (pipes : List Int) (L : Nat → Prop) (t : FdTable) : Prop :=
  (∀ j fd, pipes[j]? = some fd → L j → lookupFd t fd = some (endpointAt j)) ∧
    (∀ e ∈ t, e.2.isEndpoint = true → ∃ j, pipes[j]? = some e.1 ∧ L j)

/-- Stage `j` was handed the standard stream or the array entry the loop reads for it,
and in the table it inherits that entry is open on the read end of channel `j - 1`
(input) or the write end of channel `j` (output). -/
def Wired (pipes : List Int) (j : Nat) (c : Launch) : Prop :=
  (if j = 0 then c.in_idx = STDIN_FILENO
    else pipes[2 * (j - 1)]? = some c.in_idx ∧
      lookupFd c.fds c.in_idx = some (Obj.pipeRead (j - 1))) ∧
    (if 2 * j = pipes.length then c.out_idx = STDOUT_FILENO
      else pipes[2 * j + 1]? = some c.out_idx ∧
        lookupFd c.fds c.out_idx = some (Obj.pipeWrite j))

/-- A token list has a zero-length command segment: a `"|"` as the first token, a `"|"`
as the last token, or two adjacent `"|"` tokens. -/
def ZeroLengthSegment (tokens : List String) : Prop :=
  tokens.head? = some "|" ∨ tokens.getLast? = some "|" ∨
    ∃ i, tokens[i]? = some "|" ∧ tokens[i + 1]? = some "|"

/-- The first child collected exited with code 1, the others with code 0. -/
def failFirstEnv : Env :=
  { openFds := [0, 1, 2], pipeOk := fun _ => true, forkOk := fun _ => true,
    waitStatus := fun k => if k = 0 then WaitStatus.exited 1 else WaitStatus.exited 0,
    status0 := WaitStatus.exited 0 }

/-- The second call of `pipe()` fails. -/
def secondPipeFails : Env :=
  { openFds := [0, 1, 2], pipeOk := fun k => k == 0, forkOk := fun _ => true,
    waitStatus := fun _ => WaitStatus.exited 0, status0 := WaitStatus.exited 0 }

/-- The second call of `fork()` fails. -/
def secondForkFails : Env :=
  { openFds := [0, 1, 2], pipeOk := fun _ => true, forkOk := fun k => k == 0,
    waitStatus := fun _ => WaitStatus.exited 0, status0 := WaitStatus.exited 0 }

/-- The channel endpoints open in a table on descriptors other than standard input
and standard output. -/
def strayEndpoints (t : FdTable) : FdTable :=
  t.filter (fun e => e.2.isEndpoint && e.1 != STDIN_FILENO && e.1 != STDOUT_FILENO)

end Swish

/-! # `par_word_lengths.c`: `count_word_lengths` -/

namespace WordLengths

def MAX_WORD_LEN : Nat := 25

def INT_MIN : Int := -2147483648
def INT_MAX : Int := 2147483647

/-- Arithmetic on `int`: the result reduced to 32 bits, two's complement. -/
def wrapInt (x : Int) : Int :=
  (x + 2147483648) % 4294967296 - 2147483648

/-- The C `isspace` on a byte: space, `\t`, `\n`, `\v`, `\f`, `\r`. -/
def isspace (c : Nat) : Bool :=
  c == 32 || (9 ≤ c && c ≤ 13)

/-- The C `strlen` on a buffer: the number of bytes before the first NUL. -/
def strlen (buf : List Nat) : Nat :=
  (buf.takeWhile (fun b => b != 0)).length

/-- Model of `fscanf(fp, "%s", word)`: skip white space; at end of file nothing is
converted (`none`); otherwise the maximal run of non-space bytes is the word, and the
stream continues after it. -/
def fscanf (stream : List Nat) : Option (List Nat × List Nat) :=
  match stream.dropWhile isspace with
  | [] => none
  | c :: cs =>
    some ((c :: cs).takeWhile (fun b => !isspace b), (c :: cs).dropWhile (fun b => !isspace b))

/-- Model of `counts[idx]++` on an array of `int`; `none` when `idx` is outside the
array. -/
def increment (counts : List Int) (idx : Int) : Option (List Int) :=
  if 0 ≤ idx then
    match counts[idx.toNat]? with
    | none => none
    | some v => some (counts.set idx.toNat (wrapInt (v + 1)))
  else none

/-- The loop `while (fscanf(fp, "%s", word) == 1)`.  `none`: out of fuel, a word that
does not fit `char word[MAX_WORD_LEN + 1]`, or a write outside `counts`. -/
def countLoop : Nat → List Nat → List Int → Option (List Int)
  | 0, stream, counts =>
    match fscanf stream with
    | none => some counts
    | some _ => none
  | fuel + 1, stream, counts =>
    match fscanf stream with
    | none => some counts
    | some (w, rest) =>
      if w.length + 1 > MAX_WORD_LEN + 1 then none
      else
        let len := strlen (w ++ [0])
        if len ≤ MAX_WORD_LEN then
          match increment counts ((len : Int) - 1) with
          | none => none
          | some counts1 => countLoop fuel rest counts1
        else countLoop fuel rest counts

/-- Model of `count_word_lengths`.  `file` is what `fopen` finds: `none` when the file
cannot be opened, otherwise its bytes; `fcloseOk` tells whether `fclose` succeeds.
The result is the returned value and the `counts` array; `none` is undefined
behaviour (see `countLoop`). -/
def count_word_lengths (file : Option (List Nat)) (fcloseOk : Bool) (counts : List Int) :
    Option (Int × List Int) :=
  match file with
  | none => some (-1, counts)
  | some bytes =>
    match countLoop bytes.length bytes counts with
    | none => none
    | some counts1 => if fcloseOk then some (0, counts1) else some (-1, counts1)

/-- The whitespace-separated words of a file. -/
def fileWords (bytes : List Nat) : List (List Nat) :=
  (bytes.splitOnP isspace).filter (fun w => !w.isEmpty)

/-- The number of words of a file that have exactly `k` characters. -/
def wordsOfLength (bytes : List Nat) (k : Nat) : Nat :=
  (fileWords bytes).countP (fun w => w.length == k)

end WordLengths

namespace Swish

/-! ## Lemmas on descriptor tables -/

theorem isOpen_iff (t : FdTable) (fd : Int) : isOpen t fd = true ↔ ∃ e ∈ t, e.1 = fd := by
  simp [isOpen]

theorem isOpen_false_iff (t : FdTable) (fd : Int) :
    isOpen t fd = false ↔ ∀ e ∈ t, e.1 ≠ fd := by
  simp [isOpen]

theorem lowestFreeFrom_ge (t : FdTable) : ∀ (k : Nat) (n : Int), n ≤ lowestFreeFrom t k n
  | 0, n => by simp [lowestFreeFrom]
  | k + 1, n => by
    unfold lowestFreeFrom
    split
    · have := lowestFreeFrom_ge t k (n + 1)
      omega
    · exact le_refl n

theorem filter_length_lt_of_open (t : FdTable) (n : Int) (h : isOpen t n = true) :
    (t.filter (fun e => decide (n + 1 ≤ e.1))).length
      < (t.filter (fun e => decide (n ≤ e.1))).length := by
  induction t with
  | nil => simp [isOpen] at h
  | cons a t ih =>
    have hmono : (t.filter (fun e => decide (n + 1 ≤ e.1))).length
        ≤ (t.filter (fun e => decide (n ≤ e.1))).length := by
      rw [← List.countP_eq_length_filter, ← List.countP_eq_length_filter]
      apply List.countP_mono_left
      intro x _ hx
      simp only [decide_eq_true_eq] at hx ⊢
      omega
    by_cases ha : a.1 = n
    · have h1 : ¬ (n + 1 ≤ a.1) := by omega
      have h2 : n ≤ a.1 := by omega
      simp only [List.filter_cons, h1, h2, decide_True, decide_False, if_true, if_false,
        List.length_cons, Bool.false_eq_true]
      omega
    · have h' : isOpen t n = true := by
        rw [isOpen_iff] at h ⊢
        obtain ⟨e, he, hen⟩ := h
        rcases List.mem_cons.mp he with rfl | he
        · exact absurd hen ha
        · exact ⟨e, he, hen⟩
      have := ih h'
      by_cases h1 : n + 1 ≤ a.1
      · have h2 : n ≤ a.1 := by omega
        simp only [List.filter_cons, h1, h2, decide_True, if_true, List.length_cons]
        omega
      · by_cases h2 : n ≤ a.1
        · simp only [List.filter_cons, h1, h2, decide_True, decide_False, if_true, if_false,
            List.length_cons, Bool.false_eq_true]
          omega
        · simp only [List.filter_cons, h1, h2, decide_False, if_false, Bool.false_eq_true]
          omega

theorem lowestFreeFrom_free (t : FdTable) : ∀ (k : Nat) (n : Int),
    (t.filter (fun e => decide (n ≤ e.1))).length ≤ k → isOpen t (lowestFreeFrom t k n) = false
  | 0, n, h => by
    simp only [lowestFreeFrom]
    rw [isOpen_false_iff]
    intro e he hen
    have hmem : e ∈ t.filter (fun e => decide (n ≤ e.1)) := by
      simp [List.mem_filter, he, hen]
    have hnil : t.filter (fun e => decide (n ≤ e.1)) = [] :=
      List.length_eq_zero.mp (Nat.le_zero.mp h)
    rw [hnil] at hmem
    exact absurd hmem (List.not_mem_nil e)
  | k + 1, n, h => by
    unfold lowestFreeFrom
    by_cases ho : isOpen t n = true
    · rw [if_pos ho]
      apply lowestFreeFrom_free t k (n + 1)
      have := filter_length_lt_of_open t n ho
      omega
    · rw [if_neg ho]
      simpa using ho

theorem lowestFree_free (t : FdTable) : isOpen t (lowestFree t) = false := by
  unfold lowestFree
  apply lowestFreeFrom_free
  exact List.length_filter_le _ _

theorem lowestFree_nonneg (t : FdTable) : 0 ≤ lowestFree t :=
  lowestFreeFrom_ge t t.length 0

theorem lookupFd_nil (fd : Int) : lookupFd [] fd = none := rfl

theorem lookupFd_cons (a : Int × Obj) (t : FdTable) (fd : Int) :
    lookupFd (a :: t) fd = if a.1 = fd then some a.2 else lookupFd t fd := by
  by_cases h : a.1 = fd
  · simp [lookupFd, List.find?_cons, h]
  · simp [lookupFd, List.find?_cons, h]

theorem isOpen_of_lookupFd {t : FdTable} {fd : Int} {o : Obj} (h : lookupFd t fd = some o) :
    isOpen t fd = true := by
  induction t with
  | nil => simp [lookupFd_nil] at h
  | cons a t ih =>
    rw [lookupFd_cons] at h
    rw [isOpen_iff]
    by_cases ha : a.1 = fd
    · exact ⟨a, List.mem_cons_self _ _, ha⟩
    · rw [if_neg ha] at h
      obtain ⟨e, he, hfd⟩ := (isOpen_iff t fd).mp (ih h)
      exact ⟨e, List.mem_cons_of_mem _ he, hfd⟩

theorem lookupFd_eq_none {t : FdTable} {fd : Int} (h : isOpen t fd = false) :
    lookupFd t fd = none := by
  induction t with
  | nil => rfl
  | cons a t ih =>
    rw [isOpen_false_iff] at h
    rw [lookupFd_cons, if_neg (h a (List.mem_cons_self _ _))]
    apply ih
    rw [isOpen_false_iff]
    exact fun e he => h e (List.mem_cons_of_mem _ he)

theorem lookupFd_append (t u : FdTable) (fd : Int) :
    lookupFd (t ++ u) fd = (lookupFd t fd).or (lookupFd u fd) := by
  induction t with
  | nil => simp [lookupFd_nil]
  | cons a t ih =>
    rw [List.cons_append, lookupFd_cons, lookupFd_cons, ih]
    by_cases ha : a.1 = fd
    · simp [ha]
    · simp [ha]

theorem lookupFd_filter_ne (t : FdTable) (fd fd1 : Int) (h : fd1 ≠ fd) :
    lookupFd (t.filter (fun e => e.1 != fd)) fd1 = lookupFd t fd1 := by
  induction t with
  | nil => rfl
  | cons a t ih =>
    by_cases ha : a.1 = fd
    · have h1 : ¬ (a.1 = fd1) := fun hh => h (hh ▸ ha)
      rw [List.filter_cons_of_neg (by simp [ha]), ih, lookupFd_cons, if_neg h1]
    · rw [List.filter_cons_of_pos (by simpa using ha), lookupFd_cons, lookupFd_cons, ih]

theorem endpointAt_even (k : Nat) : endpointAt (2 * k) = Obj.pipeRead k := by
  simp [endpointAt]

theorem endpointAt_odd (k : Nat) : endpointAt (2 * k + 1) = Obj.pipeWrite k := by
  have h1 : (2 * k + 1) % 2 = 1 := by omega
  have h2 : (2 * k + 1) / 2 = k := by omega
  simp [endpointAt, h1, h2]

/-! ## Lemmas on token lists -/

theorem countPipes_eq_count (l : List String) : countPipes l = l.count "|" := by
  induction l with
  | nil => rfl
  | cons x xs ih =>
    by_cases h : x = "|"
    · subst h
      simp [countPipes, ih]
    · have h' : ("|" == x) = false := by
        simp only [beq_eq_false_iff_ne, ne_eq]
        exact fun hh => h hh.symm
      simp [countPipes, ih, h, List.count_cons, h']

theorem findEnd_eq (l : List String) : ∀ e : Nat, findEnd l e = e + findEnd l 0 := by
  induction l with
  | nil => intro e; simp [findEnd]
  | cons x xs ih =>
    intro e
    by_cases h : x = "|"
    · simp [findEnd, h]
    · simp only [findEnd, h, if_false]
      rw [ih (e + 1), ih (0 + 1)]
      omega

theorem findEnd_le (l : List String) : findEnd l 0 ≤ l.length := by
  induction l with
  | nil => simp [findEnd]
  | cons x xs ih =>
    by_cases h : x = "|"
    · simp [findEnd, h]
    · simp only [findEnd, h, if_false, List.length_cons]
      rw [findEnd_eq]
      omega

theorem splitOn_findEnd (l : List String) :
    l.splitOn "|" =
      if findEnd l 0 < l.length then
        l.take (findEnd l 0) :: (l.drop (findEnd l 0 + 1)).splitOn "|"
      else [l] := by
  induction l with
  | nil => simp [findEnd, List.splitOn, List.splitOnP_nil]
  | cons x xs ih =>
    by_cases h : x = "|"
    · subst h
      simp [findEnd, List.splitOn, List.splitOnP_cons]
    · have hx : (x == "|") = false := by simpa using h
      have e1 : findEnd (x :: xs) 0 = findEnd xs 0 + 1 := by
        simp only [findEnd, h, if_false]
        rw [findEnd_eq]
        omega
      have e2 : (x :: xs).splitOn "|" = (xs.splitOn "|").modifyHead (List.cons x) := by
        simp only [List.splitOn]
        rw [List.splitOnP_cons]
        simp [hx]
      rw [e2, ih, e1]
      by_cases hlt : findEnd xs 0 < xs.length
      · simp [hlt, List.modifyHead]
      · simp [hlt, List.modifyHead]

theorem countPipes_findEnd (l : List String) :
    countPipes l =
      if findEnd l 0 < l.length then countPipes (l.drop (findEnd l 0 + 1)) + 1 else 0 := by
  induction l with
  | nil => simp [findEnd, countPipes]
  | cons x xs ih =>
    by_cases h : x = "|"
    · subst h
      simp [findEnd, countPipes]
    · have e1 : findEnd (x :: xs) 0 = findEnd xs 0 + 1 := by
        simp only [findEnd, h, if_false]
        rw [findEnd_eq]
        omega
      rw [e1]
      simp only [countPipes, h, if_false, List.length_cons, List.drop_succ_cons,
        Nat.add_lt_add_iff_right]
      exact ih

/-! ## Invariants of the `pipes` array and the parent's table -/

theorem isOpen_append (t u : FdTable) (fd : Int) :
    isOpen (t ++ u) fd = (isOpen t fd || isOpen u fd) := by
  simp [isOpen]

theorem sys_pipe_inv (t : FdTable) (pipes : List Int) (chan : Nat) (h : PipesInv t pipes)
    (hlen : pipes.length = 2 * chan) :
    PipesInv (sys_pipe t chan).2.2 (pipes ++ [(sys_pipe t chan).1, (sys_pipe t chan).2.1]) := by
  obtain ⟨hlook, hnd, hnn, hend⟩ := h
  have hopen : ∀ fd ∈ pipes, isOpen t fd = true := by
    intro fd hfd
    obtain ⟨j, hj⟩ := List.mem_iff_getElem?.mp hfd
    exact isOpen_of_lookupFd (hlook j fd hj)
  have hr := lowestFree_free t
  have hw := lowestFree_free (t ++ [(lowestFree t, Obj.pipeRead chan)])
  have hr0 := lowestFree_nonneg t
  have hw0 := lowestFree_nonneg (t ++ [(lowestFree t, Obj.pipeRead chan)])
  rw [isOpen_append] at hw
  simp only [Bool.or_eq_false_iff] at hw
  obtain ⟨hw1, hw2⟩ := hw
  have hwr : lowestFree (t ++ [(lowestFree t, Obj.pipeRead chan)]) ≠ lowestFree t := by
    intro heq
    simp [isOpen, heq] at hw2
  have hrp : lowestFree t ∉ pipes := by
    intro hmem
    rw [hopen _ hmem] at hr
    exact Bool.noConfusion hr
  have hwp : lowestFree (t ++ [(lowestFree t, Obj.pipeRead chan)]) ∉ pipes := by
    intro hmem
    rw [hopen _ hmem] at hw1
    exact Bool.noConfusion hw1
  simp only [sys_pipe]
  refine ⟨?_, ?_, ?_, ?_⟩
  · intro j fd hj
    rw [lookupFd_append, lookupFd_append]
    by_cases hjl : j < pipes.length
    · rw [List.getElem?_append_left hjl] at hj
      rw [hlook j fd hj]
      rfl
    · rw [List.getElem?_append_right (by omega)] at hj
      by_cases hj0 : j - pipes.length = 0
      · rw [hj0] at hj
        simp only [List.getElem?_cons_zero, Option.some.injEq] at hj
        subst hj
        have hjv : j = 2 * chan := by omega
        rw [lookupFd_eq_none hr, hjv, endpointAt_even]
        simp [lookupFd_cons]
      · by_cases hj1 : j - pipes.length = 1
        · rw [hj1] at hj
          simp only [List.getElem?_cons_succ, List.getElem?_cons_zero, Option.some.injEq] at hj
          subst hj
          have hjv : j = 2 * chan + 1 := by omega
          rw [lookupFd_eq_none hw1, hjv, endpointAt_odd]
          simp [lookupFd_cons, lookupFd_nil, hwr.symm]
        · have hlt : j - pipes.length < 2 := by
            have := (List.getElem?_eq_some_iff.mp hj).1
            simpa using this
          omega
  · rw [List.nodup_append]
    refine ⟨hnd, ?_, ?_⟩
    · simp only [List.nodup_cons, List.mem_singleton, List.not_mem_nil, not_false_eq_true,
        List.nodup_nil, and_true]
      exact fun heq => hwr heq.symm
    · intro a ha hb
      simp only [List.mem_cons, List.mem_singleton, List.not_mem_nil, or_false] at hb
      rcases hb with h1 | h1
      · exact hrp (h1 ▸ ha)
      · exact hwp (h1 ▸ ha)
  · intro fd hfd
    simp only [List.mem_append, List.mem_cons, List.mem_singleton, List.not_mem_nil,
      or_false] at hfd
    rcases hfd with h1 | h1 | h1
    · exact hnn fd h1
    · exact h1 ▸ hr0
    · exact h1 ▸ hw0
  · intro e he hep
    simp only [List.mem_append, List.mem_singleton] at he
    simp only [List.mem_append, List.mem_cons, List.mem_singleton, List.not_mem_nil, or_false]
    rcases he with (h1 | h1) | h1
    · exact Or.inl (hend e h1 hep)
    · exact Or.inr (Or.inl (by rw [h1]))
    · exact Or.inr (Or.inr (by rw [h1]))

theorem createPipes_inv (env : Env) :
    ∀ (k i : Nat) (t : FdTable) (pipes : List Int) (pipes1 : List Int) (t1 : FdTable),
      PipesInv t pipes → pipes.length = 2 * i →
      createPipes env k i t pipes = Except.ok (pipes1, t1) →
        pipes1.length = pipes.length + 2 * k ∧ PipesInv t1 pipes1
  | 0, _, t, pipes, pipes1, t1, h, _, heq => by
    simp only [createPipes, Except.ok.injEq, Prod.mk.injEq] at heq
    obtain ⟨rfl, rfl⟩ := heq
    exact ⟨by simp, h⟩
  | k + 1, i, t, pipes, pipes1, t1, h, hlen, heq => by
    by_cases hp : env.pipeOk i = true
    · simp only [createPipes, hp, if_true] at heq
      obtain ⟨h2, h3⟩ :=
        createPipes_inv env k (i + 1) _ _ pipes1 t1 (sys_pipe_inv t pipes i h hlen)
          (by simp only [List.length_append, List.length_cons, List.length_nil]; omega) heq
      refine ⟨?_, h3⟩
      rw [h2]
      simp only [List.length_append, List.length_cons, List.length_nil]
      omega
    · simp [createPipes, hp] at heq

theorem createPipes_succeeds (env : Env) (hp : ∀ k, env.pipeOk k = true) :
    ∀ (k i : Nat) (t : FdTable) (pipes : List Int),
      ∃ pipes1 t1, createPipes env k i t pipes = Except.ok (pipes1, t1)
  | 0, _, t, pipes => ⟨pipes, t, rfl⟩
  | k + 1, i, t, pipes => by
    obtain ⟨pipes1, t1, h1⟩ := createPipes_succeeds env hp k (i + 1)
      (sys_pipe t i).2.2 (pipes ++ [(sys_pipe t i).1, (sys_pipe t i).2.1])
    exact ⟨pipes1, t1, by simp only [createPipes, hp i, if_true]; exact h1⟩

theorem initTable_inv (env : Env) : PipesInv env.initTable [] := by
  refine ⟨by intro j fd hj; simp at hj, List.nodup_nil, by simp, ?_⟩
  intro e he hep
  simp only [Env.initTable, List.mem_map] at he
  obtain ⟨n, _, rfl⟩ := he
  simp [Obj.isEndpoint] at hep

theorem TInvP_congr {pipes : List Int} {L L1 : Nat → Prop} {t : FdTable}
    (h : ∀ j, j < pipes.length → (L j ↔ L1 j)) (hT : TInvP pipes L t) : TInvP pipes L1 t := by
  obtain ⟨h1, h2⟩ := hT
  refine ⟨?_, ?_⟩
  · intro j fd hj hL
    have hlt : j < pipes.length := (List.getElem?_eq_some_iff.mp hj).1
    exact h1 j fd hj ((h j hlt).mpr hL)
  · intro e he hep
    obtain ⟨j, hj, hL⟩ := h2 e he hep
    have hlt : j < pipes.length := (List.getElem?_eq_some_iff.mp hj).1
    exact ⟨j, hj, (h j hlt).mp hL⟩

theorem TInvP_of_PipesInv {pipes : List Int} {t : FdTable} (h : PipesInv t pipes) :
    TInvP pipes (LiveAt 0) t := by
  obtain ⟨hlook, _, _, hend⟩ := h
  refine ⟨?_, ?_⟩
  · intro j fd hj _
    exact hlook j fd hj
  · intro e he hep
    obtain ⟨j, hj⟩ := List.mem_iff_getElem?.mp (hend e he hep)
    exact ⟨j, hj, Or.inr (by omega)⟩

theorem sys_close_live {pipes : List Int} {L : Nat → Prop} {t : FdTable} {a : Nat} {fd : Int}
    (hnd : pipes.Nodup) (hT : TInvP pipes L t) (ha : pipes[a]? = some fd) (hL : L a) :
    sys_close t fd = (0, t.filter (fun e => e.1 != fd)) ∧
      TInvP pipes (fun j => L j ∧ j ≠ a) (t.filter (fun e => e.1 != fd)) := by
  obtain ⟨h1, h2⟩ := hT
  have halt : a < pipes.length := (List.getElem?_eq_some_iff.mp ha).1
  refine ⟨?_, ?_, ?_⟩
  · simp [sys_close, isOpen_of_lookupFd (h1 a fd ha hL)]
  · intro j fd1 hj hLj
    obtain ⟨hLj1, hja⟩ := hLj
    have hne : fd1 ≠ fd := by
      intro heq
      apply hja
      have : pipes[a]? = pipes[j]? := by rw [ha, hj, heq]
      exact (List.getElem?_inj halt hnd this).symm
    rw [lookupFd_filter_ne t fd fd1 hne]
    exact h1 j fd1 hj hLj1
  · intro e he hep
    simp only [List.mem_filter, bne_iff_ne, ne_eq] at he
    obtain ⟨j, hj, hLj⟩ := h2 e he.1 hep
    refine ⟨j, hj, hLj, ?_⟩
    intro hja
    subst hja
    rw [ha] at hj
    exact he.2 (Option.some.inj hj).symm

theorem launchStep_ok (env : Env) (tokens : List String)
    (pipes : List Int) (hnd : pipes.Nodup) (hnn : ∀ fd ∈ pipes, 0 ≤ fd) (s : PState)
    (hcs : s.cmd_start ≤ tokens.length)
    (hcnt : 2 * (s.i + countPipes (tokens.drop s.cmd_start)) = pipes.length)
    (hT : TInvP pipes (LiveAt s.i) s.fds) (hf : env.forkOk s.i = true) :
    ∃ c t1, launchStep env tokens pipes s = some (true,
        { i := s.i + 1, cmd_start := findEnd (tokens.drop s.cmd_start) s.cmd_start + 1,
          cmd_end := findEnd (tokens.drop s.cmd_start) s.cmd_start, fds := t1,
          children := s.children ++ [c] }) ∧
      c.cmd_tokens
        = copyTokens tokens s.cmd_start (findEnd (tokens.drop s.cmd_start) s.cmd_start) ∧
      c.fds = s.fds ∧ Wired pipes s.i c ∧ TInvP pipes (LiveAt (s.i + 1)) t1 := by
  have hk := countPipes_findEnd (tokens.drop s.cmd_start)
  have he := findEnd_eq (tokens.drop s.cmd_start) s.cmd_start
  have hle := findEnd_le (tokens.drop s.cmd_start)
  have hlen : (tokens.drop s.cmd_start).length = tokens.length - s.cmd_start :=
    List.length_drop _ _
  by_cases hlast : findEnd (tokens.drop s.cmd_start) s.cmd_start < tokens.length
  · have hk1 : findEnd (tokens.drop s.cmd_start) 0 < (tokens.drop s.cmd_start).length := by
      omega
    rw [if_pos hk1] at hk
    have hb : 2 * s.i + 1 < pipes.length := by omega
    have hw : pipes[2 * s.i + 1]? = some (pipes[2 * s.i + 1]) := List.getElem?_eq_getElem hb
    have hw1 : pipes[2 * s.i + 1] ≠ -1 := by
      have := hnn _ (List.getElem?_mem hw)
      omega
    by_cases hi : 0 < s.i
    · have hb2 : 2 * (s.i - 1) < pipes.length := by omega
      have hr : pipes[2 * (s.i - 1)]? = some (pipes[2 * (s.i - 1)]) :=
        List.getElem?_eq_getElem hb2
      have hr1 : pipes[2 * (s.i - 1)] ≠ -1 := by
        have := hnn _ (List.getElem?_mem hr)
        omega
      obtain ⟨hc1, hT1⟩ := sys_close_live hnd hT hr (Or.inl ⟨hi, rfl⟩)
      obtain ⟨hc2, hT2⟩ := sys_close_live hnd hT1 hw ⟨Or.inr (by omega), by omega⟩
      refine ⟨{ cmd_tokens := copyTokens tokens s.cmd_start
                  (findEnd (tokens.drop s.cmd_start) s.cmd_start),
                in_idx := pipes[2 * (s.i - 1)], out_idx := pipes[2 * s.i + 1], fds := s.fds },
              _, ?_, rfl, rfl, ?_, TInvP_congr ?_ hT2⟩
      · simp [launchStep, parentAfterFork, hlast, hw, hr, hi, hf, hc1, hc2, hw1, hr1]
      · refine ⟨?_, ?_⟩
        · rw [if_neg (by omega)]
          exact ⟨hr, by rw [← endpointAt_even]; exact hT.1 _ _ hr (Or.inl ⟨hi, rfl⟩)⟩
        · rw [if_neg (by omega)]
          exact ⟨hw, by rw [← endpointAt_odd]; exact hT.1 _ _ hw (Or.inr (by omega))⟩
      · intro j _
        simp only [LiveAt]
        omega
    · have hi0 : s.i = 0 := by omega
      obtain ⟨hc2, hT2⟩ := sys_close_live hnd hT hw (Or.inr (by omega))
      refine ⟨{ cmd_tokens := copyTokens tokens s.cmd_start
                  (findEnd (tokens.drop s.cmd_start) s.cmd_start),
                in_idx := STDIN_FILENO, out_idx := pipes[2 * s.i + 1], fds := s.fds },
              _, ?_, rfl, rfl, ?_, TInvP_congr ?_ hT2⟩
      · simp [launchStep, parentAfterFork, hlast, hw, hi, hf, hc2, hw1]
      · refine ⟨?_, ?_⟩
        · rw [if_pos hi0]
        · rw [if_neg (by omega)]
          exact ⟨hw, by rw [← endpointAt_odd]; exact hT.1 _ _ hw (Or.inr (by omega))⟩
      · intro j _
        simp only [LiveAt]
        omega
  · have hk1 : ¬ findEnd (tokens.drop s.cmd_start) 0 < (tokens.drop s.cmd_start).length := by
      omega
    rw [if_neg hk1] at hk
    have hb : 2 * s.i = pipes.length := by omega
    by_cases hi : 0 < s.i
    · have hb2 : 2 * (s.i - 1) < pipes.length := by omega
      have hr : pipes[2 * (s.i - 1)]? = some (pipes[2 * (s.i - 1)]) :=
        List.getElem?_eq_getElem hb2
      have hr1 : pipes[2 * (s.i - 1)] ≠ -1 := by
        have := hnn _ (List.getElem?_mem hr)
        omega
      obtain ⟨hc1, hT1⟩ := sys_close_live hnd hT hr (Or.inl ⟨hi, rfl⟩)
      refine ⟨{ cmd_tokens := copyTokens tokens s.cmd_start
                  (findEnd (tokens.drop s.cmd_start) s.cmd_start),
                in_idx := pipes[2 * (s.i - 1)], out_idx := STDOUT_FILENO, fds := s.fds },
              _, ?_, rfl, rfl, ?_, TInvP_congr ?_ hT1⟩
      · simp [launchStep, parentAfterFork, hlast, hr, hi, hf, hc1, hr1]
      · refine ⟨?_, ?_⟩
        · rw [if_neg (by omega)]
          exact ⟨hr, by rw [← endpointAt_even]; exact hT.1 _ _ hr (Or.inl ⟨hi, rfl⟩)⟩
        · rw [if_pos hb]
      · intro j hj
        simp only [LiveAt]
        omega
    · have hi0 : s.i = 0 := by omega
      refine ⟨{ cmd_tokens := copyTokens tokens s.cmd_start
                  (findEnd (tokens.drop s.cmd_start) s.cmd_start),
                in_idx := STDIN_FILENO, out_idx := STDOUT_FILENO, fds := s.fds },
              _, ?_, rfl, rfl, ?_, TInvP_congr ?_ hT⟩
      · simp [launchStep, parentAfterFork, hlast, hi, hf]
      · refine ⟨?_, ?_⟩
        · rw [if_pos hi0]
        · rw [if_pos hb]
      · intro j hj
        simp only [LiveAt]
        omega

theorem launchStep_fork_fail (env : Env) (tokens : List String)
    (pipes : List Int) (s : PState)
    (hcs : s.cmd_start ≤ tokens.length)
    (hcnt : 2 * (s.i + countPipes (tokens.drop s.cmd_start)) = pipes.length)
    (hf : env.forkOk s.i = false) :
    launchStep env tokens pipes s = some (false,
        { i := s.i, cmd_start := s.cmd_start,
          cmd_end := findEnd (tokens.drop s.cmd_start) s.cmd_start, fds := s.fds,
          children := s.children }) := by
  have hk := countPipes_findEnd (tokens.drop s.cmd_start)
  have he := findEnd_eq (tokens.drop s.cmd_start) s.cmd_start
  have hle := findEnd_le (tokens.drop s.cmd_start)
  have hlen : (tokens.drop s.cmd_start).length = tokens.length - s.cmd_start :=
    List.length_drop _ _
  by_cases hi : 0 < s.i
  · have hr : pipes[2 * (s.i - 1)]? = some (pipes[2 * (s.i - 1)]) :=
      List.getElem?_eq_getElem (by omega)
    by_cases hlast : findEnd (tokens.drop s.cmd_start) s.cmd_start < tokens.length
    · have hk1 : findEnd (tokens.drop s.cmd_start) 0 < (tokens.drop s.cmd_start).length := by
        omega
      rw [if_pos hk1] at hk
      have hw : pipes[2 * s.i + 1]? = some (pipes[2 * s.i + 1]) :=
        List.getElem?_eq_getElem (by omega)
      simp [launchStep, hlast, hw, hr, hi, hf]
    · simp [launchStep, hlast, hr, hi, hf]
  · by_cases hlast : findEnd (tokens.drop s.cmd_start) s.cmd_start < tokens.length
    · have hk1 : findEnd (tokens.drop s.cmd_start) 0 < (tokens.drop s.cmd_start).length := by
        omega
      rw [if_pos hk1] at hk
      have hw : pipes[2 * s.i + 1]? = some (pipes[2 * s.i + 1]) :=
        List.getElem?_eq_getElem (by omega)
      simp [launchStep, hlast, hw, hi, hf]
    · simp [launchStep, hlast, hi, hf]

theorem launchLoop_done (env : Env) (tokens : List String) (pipes : List Int) (fuel : Nat)
    (s : PState) (h : ¬ s.cmd_end < tokens.length) :
    launchLoop env tokens pipes fuel s = some (true, s) := by
  cases fuel <;> simp [launchLoop, h]

theorem wired_append (pipes : List Int) (cs : List Launch) (c : Launch)
    (h : ∀ j c1, cs[j]? = some c1 → Wired pipes j c1) (hc : Wired pipes cs.length c) :
    ∀ j c1, (cs ++ [c])[j]? = some c1 → Wired pipes j c1 := by
  intro j c1 hj
  by_cases hlt : j < cs.length
  · rw [List.getElem?_append_left hlt] at hj
    exact h j c1 hj
  · have hge : cs.length ≤ j := by omega
    rw [List.getElem?_append_right hge] at hj
    have hlt1 : j - cs.length < [c].length := (List.getElem?_eq_some_iff.mp hj).1
    simp only [List.length_singleton] at hlt1
    have hj0 : j - cs.length = 0 := by omega
    rw [hj0] at hj
    simp only [List.getElem?_cons_zero, Option.some.injEq] at hj
    have hjl : j = cs.length := by omega
    rw [hjl, ← hj]
    exact hc

theorem launchLoop_ok (env : Env) (tokens : List String)
    (pipes : List Int) (hnd : pipes.Nodup) (hnn : ∀ fd ∈ pipes, 0 ≤ fd) :
    ∀ (fuel : Nat) (s : PState),
      s.cmd_start ≤ tokens.length →
      s.cmd_end < tokens.length →
      tokens.length + 1 ≤ fuel + s.cmd_start →
      2 * (s.i + countPipes (tokens.drop s.cmd_start)) = pipes.length →
      TInvP pipes (LiveAt s.i) s.fds →
      s.children.length = s.i →
      (∀ j c, s.children[j]? = some c → Wired pipes j c) →
      ∃ b s1, launchLoop env tokens pipes fuel s = some (b, s1) ∧
        (∀ j c, s1.children[j]? = some c → Wired pipes j c) ∧
        (∃ rest, s1.children.map (fun c => c.cmd_tokens) ++ rest
          = s.children.map (fun c => c.cmd_tokens)
              ++ (tokens.drop s.cmd_start).splitOn "|") ∧
        ((∀ k, env.forkOk k = true) →
          b = true ∧ 2 * s1.i = pipes.length + 2 ∧ TInvP pipes (LiveAt s1.i) s1.fds ∧
          s1.children.length = s1.i ∧
          s1.children.map (fun c => c.cmd_tokens)
            = s.children.map (fun c => c.cmd_tokens)
                ++ (tokens.drop s.cmd_start).splitOn "|") := by
  intro fuel
  induction fuel with
  | zero =>
    intro s hcs _ hfuel
    omega
  | succ fuel ih =>
    intro s hcs hce hfuel hcnt hT hlen hwired
    by_cases hfi : env.forkOk s.i = true
    swap
    · have hfi1 : env.forkOk s.i = false := by simpa using hfi
      have hstep := launchStep_fork_fail env tokens pipes s hcs hcnt hfi1
      have hl : launchLoop env tokens pipes (fuel + 1) s
          = some (false, ⟨s.i, s.cmd_start, findEnd (tokens.drop s.cmd_start) s.cmd_start,
              s.fds, s.children⟩) := by
        simp only [launchLoop, if_pos hce, hstep]
      exact ⟨false, _, hl, hwired, ⟨_, rfl⟩, fun hall => absurd (hall s.i) hfi⟩
    obtain ⟨c, t1, hstep, hc, _, hw, hT1⟩ :=
      launchStep_ok env tokens pipes hnd hnn s hcs hcnt hT hfi
    have hk := countPipes_findEnd (tokens.drop s.cmd_start)
    have hsp := splitOn_findEnd (tokens.drop s.cmd_start)
    have he := findEnd_eq (tokens.drop s.cmd_start) s.cmd_start
    have hle := findEnd_le (tokens.drop s.cmd_start)
    have hdl : (tokens.drop s.cmd_start).length = tokens.length - s.cmd_start :=
      List.length_drop _ _
    have hct : c.cmd_tokens
        = (tokens.drop s.cmd_start).take (findEnd (tokens.drop s.cmd_start) 0) := by
      rw [hc, copyTokens, he]
      congr 1
      omega
    have hw1 : ∀ j c1, (s.children ++ [c])[j]? = some c1 → Wired pipes j c1 :=
      wired_append pipes s.children c hwired (by rw [hlen]; exact hw)
    have hloop : launchLoop env tokens pipes (fuel + 1) s
        = launchLoop env tokens pipes fuel
            { i := s.i + 1, cmd_start := findEnd (tokens.drop s.cmd_start) s.cmd_start + 1,
              cmd_end := findEnd (tokens.drop s.cmd_start) s.cmd_start, fds := t1,
              children := s.children ++ [c] } := by
      simp only [launchLoop, if_pos hce, hstep]
    rw [hloop]
    by_cases hlast : findEnd (tokens.drop s.cmd_start) s.cmd_start < tokens.length
    · have hk1 : findEnd (tokens.drop s.cmd_start) 0 < (tokens.drop s.cmd_start).length := by
        omega
      rw [if_pos hk1] at hk hsp
      have hdd : (tokens.drop s.cmd_start).drop (findEnd (tokens.drop s.cmd_start) 0 + 1)
          = tokens.drop (findEnd (tokens.drop s.cmd_start) s.cmd_start + 1) := by
        rw [List.drop_drop, he, Nat.add_assoc]
      rw [hdd] at hk hsp
      obtain ⟨b, s1, h1, h6, hpre, hrest⟩ := ih
        { i := s.i + 1, cmd_start := findEnd (tokens.drop s.cmd_start) s.cmd_start + 1,
          cmd_end := findEnd (tokens.drop s.cmd_start) s.cmd_start, fds := t1,
          children := s.children ++ [c] }
        (by simp only; omega) hlast (by simp only; omega) (by simp only; omega) hT1
        (by simp [hlen]) hw1
      refine ⟨b, s1, h1, h6, ?_, ?_⟩
      · obtain ⟨rest, hr⟩ := hpre
        refine ⟨rest, ?_⟩
        rw [hr, hsp]
        simp [hct]
      intro hall
      obtain ⟨hb, h2, h3, h4, h5⟩ := hrest hall
      refine ⟨hb, h2, h3, h4, ?_⟩
      rw [h5, hsp]
      simp [hct]
    · have hk1 : ¬ findEnd (tokens.drop s.cmd_start) 0 < (tokens.drop s.cmd_start).length := by
        omega
      rw [if_neg hk1] at hk hsp
      rw [launchLoop_done env tokens pipes fuel _ hlast]
      have hall : (tokens.drop s.cmd_start).take (findEnd (tokens.drop s.cmd_start) 0)
          = tokens.drop s.cmd_start := by
        apply List.take_of_length_le
        omega
      have hmap : (s.children ++ [c]).map (fun c => c.cmd_tokens)
          = s.children.map (fun c => c.cmd_tokens)
              ++ (tokens.drop s.cmd_start).splitOn "|" := by
        rw [hsp]
        simp only [List.map_append, List.map_cons, List.map_nil, hct, hall]
      exact ⟨true, _, rfl, hw1, ⟨[], by rw [List.append_nil]; exact hmap⟩,
        fun _ => ⟨rfl, by simp only; omega, hT1, by simp [hlen], hmap⟩⟩

/-! ## The phases of `run_pipelined_commands` -/

theorem launch_phase (env : Env) (tokens : List String) (hne : tokens ≠ [])
    (pipes : List Int) (t : FdTable)
    (hcp : createPipes env (countPipes tokens) 0 env.initTable [] = Except.ok (pipes, t)) :
    ∃ b s1,
      launchLoop env tokens pipes (tokens.length + 1)
        { i := 0, cmd_start := 0, cmd_end := 0, fds := t, children := [] } = some (b, s1) ∧
      pipes.length = 2 * countPipes tokens ∧
      (∀ j c, s1.children[j]? = some c → Wired pipes j c) ∧
      (∃ rest, s1.children.map (fun c => c.cmd_tokens) ++ rest = tokens.splitOn "|") ∧
      ((∀ k, env.forkOk k = true) →
        b = true ∧
        s1.children.length = countPipes tokens + 1 ∧
        (∀ e ∈ s1.fds, e.2.isEndpoint = false) ∧
        s1.children.map (fun c => c.cmd_tokens) = tokens.splitOn "|") := by
  obtain ⟨hlen, hinv⟩ :=
    createPipes_inv env (countPipes tokens) 0 env.initTable [] pipes t (initTable_inv env) rfl hcp
  simp only [List.length_nil, Nat.zero_add] at hlen
  have hpos : 0 < tokens.length := List.length_pos.mpr hne
  obtain ⟨b, s1, h1, h6, hpre, hrest⟩ :=
    launchLoop_ok env tokens pipes hinv.2.1 hinv.2.2.1 (tokens.length + 1)
      { i := 0, cmd_start := 0, cmd_end := 0, fds := t, children := [] }
      (Nat.zero_le _) hpos (by simp) (by simp only [List.drop_zero]; omega)
      (TInvP_of_PipesInv hinv) rfl (by intro j c hj; simp at hj)
  refine ⟨b, s1, h1, hlen, h6, by simpa using hpre, ?_⟩
  intro hall
  obtain ⟨hb, h2, h3, h4, h5⟩ := hrest hall
  refine ⟨hb, by omega, ?_, by simpa using h5⟩
  intro e he
  cases hep : e.2.isEndpoint with
  | false => rfl
  | true =>
    obtain ⟨j, hj, hL⟩ := h3.2 e he hep
    have hlt : j < pipes.length := (List.getElem?_eq_some_iff.mp hj).1
    simp only [LiveAt] at hL
    omega

theorem sys_close_subset (t : FdTable) (fd : Int) : ∀ e ∈ (sys_close t fd).2, e ∈ t := by
  intro e he
  unfold sys_close at he
  split at he
  · exact (List.mem_filter.mp he).1
  · exact he

theorem closeLoop_total (pipes : List Int) : ∀ (k i : Nat) (t : FdTable),
    k = 0 ∨ i + k ≤ pipes.length →
      ∃ b t1, closeLoop pipes k i t = some (b, t1) ∧ ∀ e ∈ t1, e ∈ t
  | 0, _, t, _ => ⟨true, t, rfl, fun _ h => h⟩
  | k + 1, i, t, h => by
    have hi : i < pipes.length := by omega
    have hg : pipes[i]? = some pipes[i] := List.getElem?_eq_getElem hi
    by_cases hc : (sys_close t pipes[i]).1 = -1
    · refine ⟨false, (sys_close t pipes[i]).2, ?_, sys_close_subset t _⟩
      simp [closeLoop, hg, hc]
    · obtain ⟨b, t1, h1, h2⟩ :=
        closeLoop_total pipes k (i + 1) (sys_close t pipes[i]).2 (Or.inr (by omega))
      refine ⟨b, t1, ?_, fun e he => sys_close_subset t _ e (h2 e he)⟩
      simp [closeLoop, hg, hc, h1]

theorem collectAndClose_total (env : Env) (num_pipes : Nat) (pipes : List Int) (s : PState)
    (hlen : pipes.length = 2 * num_pipes) :
    ∃ r, collectAndClose env num_pipes pipes s = some r ∧ (∀ e ∈ r.fds, e ∈ s.fds) ∧
      r.pipes = pipes ∧ r.children = s.children ∧
      ((waitLoop env s.children.length (num_pipes + 1) 0 env.status0).1 = false →
        r.value = -1) := by
  unfold collectAndClose
  rcases hw : waitLoop env s.children.length (num_pipes + 1) 0 env.status0 with ⟨b, w⟩
  cases b with
  | false => exact ⟨_, rfl, fun _ h => h, rfl, rfl, fun _ => rfl⟩
  | true =>
    obtain ⟨b1, t1, h1, h2⟩ := closeLoop_total pipes
      (num_pipes * 2 - (if num_pipes = 1 then 2 else 4)) (if num_pipes = 1 then 2 else 4) s.fds
      (by split <;> omega)
    simp only [h1]
    cases b1 with
    | false => exact ⟨_, rfl, h2, rfl, rfl, fun _ => rfl⟩
    | true => exact ⟨_, rfl, h2, rfl, rfl, fun h => by simp at h⟩

theorem waitLoop_fail (env : Env) (nc : Nat) : ∀ (k w : Nat) (st : WaitStatus),
    (∃ j, w ≤ j ∧ j < w + k ∧ j < nc ∧ (env.waitStatus j).isFailure = true) →
      (waitLoop env nc k w st).1 = false
  | 0, w, _, h => by
    obtain ⟨j, h1, h2, _, _⟩ := h
    omega
  | k + 1, w, st, h => by
    obtain ⟨j, h1, h2, h3, h4⟩ := h
    have hw : w < nc := by omega
    simp only [waitLoop, if_pos hw]
    cases hst : env.waitStatus w with
    | signaled sg => simp [WIFEXITED]
    | exited c =>
      by_cases hc : c = 0
      · subst hc
        simp only [WIFEXITED, WEXITSTATUS, if_true, ne_eq, not_true_eq_false, if_false]
        apply waitLoop_fail env nc k (w + 1)
        refine ⟨j, ?_, by omega, h3, h4⟩
        by_contra hlt
        have hjw : j = w := by omega
        rw [hjw, hst] at h4
        simp [WaitStatus.isFailure] at h4
      · simp [WIFEXITED, WEXITSTATUS, hc]

theorem endpoint_false_of_subset {t t1 : FdTable} (h : ∀ e ∈ t1, e ∈ t)
    (ht : ∀ e ∈ t, e.2.isEndpoint = false) : ∀ e ∈ t1, e.2.isEndpoint = false :=
  fun e he => ht e (h e he)

theorem run_of_pipe_error (env : Env) (tokens : List String) (t : FdTable)
    (hcp : createPipes env (countPipes tokens) 0 env.initTable [] = Except.error t) :
    run_pipelined_commands env tokens
      = some { value := -1, fds := t, pipes := [], children := [], waits := 0 } := by
  simp only [run_pipelined_commands, hcp]

theorem run_of_launch_fail (env : Env) (tokens : List String) (pipes : List Int) (t : FdTable)
    (s1 : PState)
    (hcp : createPipes env (countPipes tokens) 0 env.initTable [] = Except.ok (pipes, t))
    (hl : launchLoop env tokens pipes (tokens.length + 1)
      { i := 0, cmd_start := 0, cmd_end := 0, fds := t, children := [] } = some (false, s1)) :
    run_pipelined_commands env tokens
      = some { value := -1, fds := s1.fds, pipes := pipes, children := s1.children,
               waits := 0 } := by
  simp only [run_pipelined_commands, hcp, hl]

theorem run_of_launch_ok (env : Env) (tokens : List String) (pipes : List Int) (t : FdTable)
    (s1 : PState)
    (hcp : createPipes env (countPipes tokens) 0 env.initTable [] = Except.ok (pipes, t))
    (hl : launchLoop env tokens pipes (tokens.length + 1)
      { i := 0, cmd_start := 0, cmd_end := 0, fds := t, children := [] } = some (true, s1)) :
    run_pipelined_commands env tokens = collectAndClose env (countPipes tokens) pipes s1 := by
  simp only [run_pipelined_commands, hcp, hl]

/-- Summary of a run on a non-empty token list. -/
theorem run_spec (env : Env) (tokens : List String) (hne : tokens ≠ []) :
    ∃ r, run_pipelined_commands env tokens = some r ∧
      (∀ j c, r.children[j]? = some c →
        r.pipes.length = 2 * countPipes tokens ∧ Wired r.pipes j c) ∧
      (∃ rest, r.children.map (fun c => c.cmd_tokens) ++ rest = tokens.splitOn "|") ∧
      ((∀ k, env.pipeOk k = true) → (∀ k, env.forkOk k = true) →
        r.children.length = countPipes tokens + 1 ∧
        (∀ e ∈ r.fds, e.2.isEndpoint = false) ∧
        r.children.map (fun c => c.cmd_tokens) = tokens.splitOn "|" ∧
        ((∃ j, j < countPipes tokens + 1 ∧ (env.waitStatus j).isFailure = true) →
          r.value = -1)) := by
  cases hcp : createPipes env (countPipes tokens) 0 env.initTable [] with
  | error t =>
    refine ⟨_, run_of_pipe_error env tokens t hcp, ?_, ⟨_, List.nil_append _⟩, ?_⟩
    · intro j c hj
      simp at hj
    · intro hp _
      obtain ⟨p1, t1, h1⟩ := createPipes_succeeds env hp (countPipes tokens) 0 env.initTable []
      rw [hcp] at h1
      cases h1
  | ok pt =>
    obtain ⟨pipes, t⟩ := pt
    obtain ⟨b, s1, hl, hlen, hw, hpre, hrest⟩ := launch_phase env tokens hne pipes t hcp
    cases b with
    | false =>
      refine ⟨_, run_of_launch_fail env tokens pipes t s1 hcp hl,
        fun j c hj => ⟨hlen, hw j c hj⟩, hpre, ?_⟩
      intro _ hf
      have := (hrest hf).1
      cases this
    | true =>
      obtain ⟨r, hr, hsub, hpipes, hch, hfail⟩ :=
        collectAndClose_total env (countPipes tokens) pipes s1 hlen
      refine ⟨r, (run_of_launch_ok env tokens pipes t s1 hcp hl).trans hr, ?_, ?_, ?_⟩
      · intro j c hj
        rw [hpipes]
        rw [hch] at hj
        exact ⟨hlen, hw j c hj⟩
      · rw [hch]
        exact hpre
      · intro _ hf
        obtain ⟨_, h2, h3, h4⟩ := hrest hf
        rw [hch]
        refine ⟨h2, endpoint_false_of_subset hsub h3, h4, ?_⟩
        intro hbad
        apply hfail
        apply waitLoop_fail
        obtain ⟨j, hj1, hj2⟩ := hbad
        exact ⟨j, Nat.zero_le _, by omega, by omega, hj2⟩

/-! ## Segments of a token list -/

theorem splitOn_pipe_cons (x : String) (xs : List String) :
    (x :: xs).splitOn "|" =
      if x = "|" then [] :: xs.splitOn "|"
      else (xs.splitOn "|").modifyHead (List.cons x) := by
  simp only [List.splitOn]
  rw [List.splitOnP_cons]
  by_cases h : x = "|" <;> simp [h]

theorem splitOn_pipe_ne_nil (l : List String) : l.splitOn "|" ≠ [] := by
  simp only [List.splitOn]
  exact List.splitOnP_ne_nil _ _

theorem splitOn_no_pipe (l : List String) : ∀ seg ∈ l.splitOn "|", "|" ∉ seg := by
  induction l with
  | nil =>
    intro seg hseg
    simp [List.splitOn, List.splitOnP_nil] at hseg
    simp [hseg]
  | cons x xs ih =>
    intro seg hseg
    rw [splitOn_pipe_cons] at hseg
    by_cases h : x = "|"
    · rw [if_pos h] at hseg
      rcases List.mem_cons.mp hseg with h1 | h1
      · simp [h1]
      · exact ih seg h1
    · rw [if_neg h] at hseg
      cases hsp : xs.splitOn "|" with
      | nil => exact absurd hsp (splitOn_pipe_ne_nil xs)
      | cons hd tl =>
        rw [hsp] at hseg ih
        simp only [List.modifyHead, List.mem_cons] at hseg
        rcases hseg with h1 | h1
        · rw [h1]
          intro hmem
          rcases List.mem_cons.mp hmem with h2 | h2
          · exact h h2.symm
          · exact ih hd (List.mem_cons_self _ _) h2
        · exact ih seg (List.mem_cons_of_mem _ h1)

theorem empty_mem_tail_splitOn (l : List String) :
    (l.getLast? = some "|" ∨ ∃ i, l[i]? = some "|" ∧ l[i + 1]? = some "|") →
      [] ∈ (l.splitOn "|").tail := by
  induction l with
  | nil =>
    intro h
    rcases h with h | ⟨i, h, _⟩ <;> simp at h
  | cons x xs ih =>
    intro h
    rw [splitOn_pipe_cons]
    have hcases : (x = "|" ∧ xs = []) ∨ (x = "|" ∧ xs.head? = some "|") ∨
        (xs.getLast? = some "|" ∨ ∃ i, xs[i]? = some "|" ∧ xs[i + 1]? = some "|") := by
      rcases h with h | ⟨i, h1, h2⟩
      · cases xs with
        | nil =>
          left
          simp at h
          exact ⟨h, rfl⟩
        | cons y ys =>
          right; right; left
          simpa [List.getLast?_cons_cons] using h
      · cases i with
        | zero =>
          right; left
          simp only [List.getElem?_cons_zero, Option.some.injEq] at h1
          simp only [Nat.zero_add, List.getElem?_cons_succ] at h2
          refine ⟨h1, ?_⟩
          cases xs with
          | nil => simp at h2
          | cons y ys => simpa using h2
        | succ i =>
          right; right; right
          exact ⟨i, by simpa using h1, by simpa using h2⟩
    rcases hcases with ⟨hx, hxs⟩ | ⟨hx, hxs⟩ | hrest
    · subst hx hxs
      simp [List.splitOn, List.splitOnP_nil]
    · subst hx
      cases xs with
      | nil => simp at hxs
      | cons y ys =>
        simp only [List.head?_cons, Option.some.injEq] at hxs
        subst hxs
        simp [splitOn_pipe_cons]
    · have hmem := ih hrest
      by_cases hx : x = "|"
      · rw [if_pos hx]
        exact List.mem_of_mem_tail hmem
      · rw [if_neg hx]
        cases hsp : xs.splitOn "|" with
        | nil => exact absurd hsp (splitOn_pipe_ne_nil xs)
        | cons hd tl =>
          rw [hsp] at hmem
          simpa [List.modifyHead] using hmem

theorem empty_mem_splitOn (tokens : List String) (h : ZeroLengthSegment tokens) :
    [] ∈ tokens.splitOn "|" := by
  rcases h with h | h
  · cases tokens with
    | nil => simp at h
    | cons x xs =>
      simp only [List.head?_cons, Option.some.injEq] at h
      subst h
      simp [splitOn_pipe_cons]
  · exact List.mem_of_mem_tail (empty_mem_tail_splitOn tokens h)

theorem ne_nil_of_zeroLengthSegment (tokens : List String) (h : ZeroLengthSegment tokens) :
    tokens ≠ [] := by
  rintro rfl
  rcases h with h | h | ⟨i, h, _⟩ <;> simp at h

/-! ## Main results on `run_pipelined_commands` -/

/-- C1, the code at the failing input: four stages, every `pipe` and `fork` succeeds
and every child exits with code 0; all four children are forked and collected, and the
function returns `-1`, because the final loop closes `pipes[4]`, which the launch loop
has already closed. -/
theorem four_stages_all_exit_zero :
    (run_pipelined_commands okEnv ["a", "|", "b", "|", "c", "|", "d"]).map
      (fun r => (r.value, r.children.length, r.waits)) = some (-1, 4, 4) := by
  decide

/-- C2: on a non-empty token list with every `pipe` and `fork` succeeding (the closes of
the launch loop then succeed too), whatever the order in which the children are
collected, if some stage's outcome is a non-zero exit or an abnormal termination then
`run_pipelined_commands` returns `-1`. -/
theorem any_stage_failure_gives_failure (env : Env) (tokens : List String)
    (outcomes : List WaitStatus) (hne : tokens ≠ [])
    (hp : ∀ k, env.pipeOk k = true) (hf : ∀ k, env.forkOk k = true)
    (horder : ((List.range (countPipes tokens + 1)).map env.waitStatus).Perm outcomes)
    (hbad : ∃ st ∈ outcomes, st.isFailure = true) :
    ∃ r, run_pipelined_commands env tokens = some r ∧ r.value = -1 := by
  obtain ⟨r, hr, _, _, hrest⟩ := run_spec env tokens hne
  obtain ⟨_, _, _, hfail⟩ := hrest hp hf
  refine ⟨r, hr, hfail ?_⟩
  obtain ⟨st, hst, hbad1⟩ := hbad
  have hmem := horder.symm.subset hst
  obtain ⟨j, hj, hjst⟩ := List.mem_map.mp hmem
  exact ⟨j, List.mem_range.mp hj, by rw [hjst]; exact hbad1⟩

/-- Instance of the failure result: `a | b`, the first child collected exited with 1. -/
theorem any_stage_failure_witness :
    ∃ r, run_pipelined_commands failFirstEnv ["a", "|", "b"] = some r ∧ r.value = -1 :=
  any_stage_failure_gives_failure failFirstEnv ["a", "|", "b"]
    [WaitStatus.exited 0, WaitStatus.exited 1] (by decide) (fun _ => rfl) (fun _ => rfl)
    (List.Perm.swap _ _ _) ⟨WaitStatus.exited 1, by decide, rfl⟩

/-- C3, counterexample: the token list `a |` ends in `"|"`; with every call succeeding
the function forks two children, the second with an empty token list, and returns 0. -/
theorem trailing_pipe_is_launched :
    (run_pipelined_commands okEnv ["a", "|"]).map
      (fun r => (r.value, r.children.map (fun c => c.cmd_tokens))) = some (0, [["a"], []]) := by
  decide

/-- C3, amended: on a token list with a zero-length command segment, when every `pipe`
and `fork` succeeds, the list is not rejected: one child is forked per segment (the
number of `"|"` tokens plus one) and a child is launched with the empty token list. -/
theorem zero_length_segment_is_launched (env : Env) (tokens : List String)
    (hp : ∀ k, env.pipeOk k = true) (hf : ∀ k, env.forkOk k = true)
    (hz : ZeroLengthSegment tokens) :
    ∃ r, run_pipelined_commands env tokens = some r ∧
      r.children.length = countPipes tokens + 1 ∧
      ∃ c ∈ r.children, c.cmd_tokens = [] := by
  obtain ⟨r, hr, _, _, hrest⟩ := run_spec env tokens (ne_nil_of_zeroLengthSegment tokens hz)
  obtain ⟨hlen, _, hseg, _⟩ := hrest hp hf
  refine ⟨r, hr, hlen, ?_⟩
  have hmem := empty_mem_splitOn tokens hz
  rw [← hseg] at hmem
  obtain ⟨c, hc, hct⟩ := List.mem_map.mp hmem
  exact ⟨c, hc, hct⟩

/-- Instance of the zero-length result: the token list starts with `"|"`. -/
theorem zero_length_segment_witness :
    ∃ r, run_pipelined_commands okEnv ["|", "a"] = some r ∧
      r.children.length = countPipes ["|", "a"] + 1 ∧
      ∃ c ∈ r.children, c.cmd_tokens = [] :=
  zero_length_segment_is_launched okEnv ["|", "a"] (fun _ => rfl) (fun _ => rfl)
    (Or.inl rfl)

/-- C4: on a non-empty token list, every stage `i` that is launched is handed
descriptor 0 as input if `i = 0` and otherwise `pipes[2*(i-1)]`, which is open on the
read end of channel `i - 1`; it is handed descriptor 1 as output if `i` is the last
stage and otherwise `pipes[2*i+1]`, which is open on the write end of channel `i`.
The indices lie inside the `pipes` array, which has `2 * (N - 1)` entries, and no read
of the array is out of bounds (the model returns a result).  With every `pipe` and
`fork` succeeding all `N` stages are launched, `N` being the number of `"|"` tokens
plus one. -/
theorem stage_endpoints (env : Env) (tokens : List String) (hne : tokens ≠ []) :
    ∃ r, run_pipelined_commands env tokens = some r ∧
      (∀ i c, r.children[i]? = some c →
        r.pipes.length = 2 * countPipes tokens ∧
        (if i = 0 then c.in_idx = 0
          else 2 * (i - 1) < r.pipes.length ∧ r.pipes[2 * (i - 1)]? = some c.in_idx ∧
            lookupFd c.fds c.in_idx = some (Obj.pipeRead (i - 1))) ∧
        (if i = countPipes tokens then c.out_idx = 1
          else 2 * i + 1 < r.pipes.length ∧ r.pipes[2 * i + 1]? = some c.out_idx ∧
            lookupFd c.fds c.out_idx = some (Obj.pipeWrite i))) ∧
      ((∀ k, env.pipeOk k = true) → (∀ k, env.forkOk k = true) →
        r.children.length = countPipes tokens + 1) := by
  obtain ⟨r, hr, hw, _, hrest⟩ := run_spec env tokens hne
  refine ⟨r, hr, ?_, fun hp hf => (hrest hp hf).1⟩
  intro i c hic
  obtain ⟨hlen, hin, hout⟩ := hw i c hic
  refine ⟨hlen, ?_, ?_⟩
  · by_cases hi : i = 0
    · rw [if_pos hi] at hin ⊢
      exact hin
    · rw [if_neg hi] at hin ⊢
      exact ⟨(List.getElem?_eq_some_iff.mp hin.1).1, hin⟩
  · by_cases hi : i = countPipes tokens
    · rw [if_pos hi]
      rw [if_pos (by omega)] at hout
      exact hout
    · rw [if_neg hi]
      rw [if_neg (by omega)] at hout
      exact ⟨(List.getElem?_eq_some_iff.mp hout.1).1, hout⟩

/-- Instance of the endpoint result: the pipeline `a | b` with every call succeeding. -/
theorem stage_endpoints_witness :
    ∃ r, run_pipelined_commands okEnv ["a", "|", "b"] = some r ∧
      (∀ i c, r.children[i]? = some c →
        r.pipes.length = 2 * countPipes ["a", "|", "b"] ∧
        (if i = 0 then c.in_idx = 0
          else 2 * (i - 1) < r.pipes.length ∧ r.pipes[2 * (i - 1)]? = some c.in_idx ∧
            lookupFd c.fds c.in_idx = some (Obj.pipeRead (i - 1))) ∧
        (if i = countPipes ["a", "|", "b"] then c.out_idx = 1
          else 2 * i + 1 < r.pipes.length ∧ r.pipes[2 * i + 1]? = some c.out_idx ∧
            lookupFd c.fds c.out_idx = some (Obj.pipeWrite i))) ∧
      r.children.length = countPipes ["a", "|", "b"] + 1 :=
  match stage_endpoints okEnv ["a", "|", "b"] (by decide) with
  | ⟨r, hr, hw, hall⟩ => ⟨r, hr, hw, hall (fun _ => rfl) (fun _ => rfl)⟩

/-- C5, the code at the failing input: two stages, the first child collected exited
with code 1; two children were forked and `wait` was called once before the function
returned `-1`. -/
theorem first_failure_stops_collection :
    (run_pipelined_commands failFirstEnv ["a", "|", "b"]).map
      (fun r => (r.value, r.children.length, r.waits)) = some (-1, 2, 1) := by
  decide

/-- C6, the code at the failing input: in the pipeline `a | b`, when the child of
stage 0 calls `run_command` it still holds descriptor 3, the read end of channel 0,
which is not one of its two endpoints; the child of stage 1 holds no such descriptor. -/
theorem first_stage_keeps_read_end :
    (run_pipelined_commands okEnv ["a", "|", "b"]).map
      (fun r => r.children.map (fun c =>
        strayEndpoints (run_piped_command none c.fds c.in_idx c.out_idx).atRunCommand))
      = some [[(3, Obj.pipeRead 0)], []] := by
  decide

/-- C7, counterexample: when the second `pipe()` fails the function returns `-1` with
both ends of channel 0 still open in the parent; when the second `fork()` fails it
returns `-1` with the read end of channel 0 still open. -/
theorem endpoints_left_open_on_failure :
    (run_pipelined_commands secondPipeFails ["a", "|", "b", "|", "c"]).map
        (fun r => (r.value, r.fds.filter (fun e => e.2.isEndpoint)))
      = some (-1, [(3, Obj.pipeRead 0), (4, Obj.pipeWrite 0)]) ∧
    (run_pipelined_commands secondForkFails ["a", "|", "b"]).map
        (fun r => (r.value, r.fds.filter (fun e => e.2.isEndpoint)))
      = some (-1, [(3, Obj.pipeRead 0)]) := by
  decide

theorem run_nil (env : Env) :
    ∃ r, run_pipelined_commands env [] = some r ∧ ∀ e ∈ r.fds, e.2.isEndpoint = false := by
  have hcp : createPipes env (countPipes []) 0 env.initTable []
      = Except.ok ([], env.initTable) := rfl
  have hl : launchLoop env [] [] (([] : List String).length + 1)
      { i := 0, cmd_start := 0, cmd_end := 0, fds := env.initTable, children := [] }
      = some (true, { i := 0, cmd_start := 0, cmd_end := 0, fds := env.initTable,
                      children := [] }) :=
    launchLoop_done env [] [] _ _ (by simp)
  obtain ⟨r, hr, hsub, _⟩ := collectAndClose_total env (countPipes []) []
    { i := 0, cmd_start := 0, cmd_end := 0, fds := env.initTable, children := [] } rfl
  refine ⟨r, (run_of_launch_ok env [] [] env.initTable _ hcp hl).trans hr, ?_⟩
  intro e he
  cases hep : e.2.isEndpoint with
  | false => rfl
  | true =>
    have := (initTable_inv env).2.2.2 e (hsub e he) hep
    simp at this

/-- C7, amended: when every `pipe()` and every `fork()` succeeds, whenever
`run_pipelined_commands` returns in the parent, with 0 or with `-1`, no descriptor of
the parent is open on a channel endpoint any more. -/
theorem endpoints_closed_when_all_launched (env : Env) (tokens : List String)
    (hp : ∀ k, env.pipeOk k = true) (hf : ∀ k, env.forkOk k = true) :
    ∃ r, run_pipelined_commands env tokens = some r ∧
      ∀ e ∈ r.fds, e.2.isEndpoint = false := by
  by_cases hne : tokens = []
  · subst hne
    exact run_nil env
  · obtain ⟨r, hr, _, _, hrest⟩ := run_spec env tokens hne
    exact ⟨r, hr, (hrest hp hf).2.1⟩

/-- Instance of the closing result: three stages, the first child collected fails. -/
theorem endpoints_closed_witness :
    ∃ r, run_pipelined_commands failFirstEnv ["a", "|", "b", "|", "c"] = some r ∧
      ∀ e ∈ r.fds, e.2.isEndpoint = false :=
  endpoints_closed_when_all_launched failFirstEnv ["a", "|", "b", "|", "c"]
    (fun _ => rfl) (fun _ => rfl)

/-- C8, the code on the failing path: whatever the stage, when `run_command` returns
`-1` in the child, `run_piped_command` returns `-1` and the child executes `return -1`:
control goes back to the caller of `run_pipelined_commands` inside the child, and
`exit` is not called. -/
theorem child_returns_when_run_command_fails (l : Launch) :
    child_branch (some (-1)) l = ChildEnd.returned (-1) := by
  simp [child_branch, run_piped_command]

/-- On a non-empty token list, in every environment, the token lists of the children,
in launch order, are an initial part of the segments of the token list between `"|"`
tokens, and none of them contains `"|"`. -/
theorem children_tokens_initial_part (env : Env) (tokens : List String) (hne : tokens ≠ []) :
    ∃ r, run_pipelined_commands env tokens = some r ∧
      (∃ rest, r.children.map (fun c => c.cmd_tokens) ++ rest = tokens.splitOn "|") ∧
      (∀ c ∈ r.children, "|" ∉ c.cmd_tokens) := by
  obtain ⟨r, hr, _, hpre, _⟩ := run_spec env tokens hne
  refine ⟨r, hr, hpre, ?_⟩
  intro c hc
  apply splitOn_no_pipe tokens
  obtain ⟨rest, hrest1⟩ := hpre
  rw [← hrest1]
  exact List.mem_append_left _ (List.mem_map_of_mem _ hc)

/-- C9, counterexample: on `a | b`, when the second `fork()` fails the function returns
`-1` having launched one stage only, with the token list `a`: the number of stages
launched is not the number of `"|"` tokens plus one, and joining the launched token
lists gives `a`, not the original token list. -/
theorem second_fork_failure_cuts_launch :
    (run_pipelined_commands secondForkFails ["a", "|", "b"]).map
        (fun r => (r.value, r.children.length, r.children.map (fun c => c.cmd_tokens),
          ["|"].intercalate (r.children.map (fun c => c.cmd_tokens))))
      = some (-1, 1, [["a"]], ["a"]) ∧
    ["a", "|", "b"].count "|" + 1 = 2 := by
  decide

/-- C9, amended: on a non-empty token list on which every `pipe` and every `fork`
succeeds, the token lists of the children, in launch order, are exactly the segments
of the token list between `"|"` tokens: no segment contains `"|"`, joining them with
one `"|"` in between gives back the token list, and their number is the number of
`"|"` tokens plus one. -/
theorem launched_segments (env : Env) (tokens : List String) (hne : tokens ≠ [])
    (hp : ∀ k, env.pipeOk k = true) (hf : ∀ k, env.forkOk k = true) :
    ∃ r, run_pipelined_commands env tokens = some r ∧
      r.children.map (fun c => c.cmd_tokens) = tokens.splitOn "|" ∧
      (∀ c ∈ r.children, "|" ∉ c.cmd_tokens) ∧
      ["|"].intercalate (r.children.map (fun c => c.cmd_tokens)) = tokens ∧
      r.children.length = tokens.count "|" + 1 := by
  obtain ⟨r, hr, _, _, hrest⟩ := run_spec env tokens hne
  obtain ⟨hlen, _, hseg, _⟩ := hrest hp hf
  refine ⟨r, hr, hseg, ?_, ?_, ?_⟩
  · intro c hc
    apply splitOn_no_pipe tokens
    rw [← hseg]
    exact List.mem_map_of_mem _ hc
  · rw [hseg]
    exact List.intercalate_splitOn tokens "|"
  · rw [hlen, countPipes_eq_count]

/-- Instance of the segment result: `ls -l | wc > out` with every call succeeding. -/
theorem launched_segments_witness :
    ∃ r, run_pipelined_commands okEnv ["ls", "-l", "|", "wc", ">", "out"] = some r ∧
      r.children.map (fun c => c.cmd_tokens)
        = ["ls", "-l", "|", "wc", ">", "out"].splitOn "|" ∧
      (∀ c ∈ r.children, "|" ∉ c.cmd_tokens) ∧
      ["|"].intercalate (r.children.map (fun c => c.cmd_tokens))
        = ["ls", "-l", "|", "wc", ">", "out"] ∧
      r.children.length = ["ls", "-l", "|", "wc", ">", "out"].count "|" + 1 :=
  launched_segments okEnv ["ls", "-l", "|", "wc", ">", "out"] (by decide)
    (fun _ => rfl) (fun _ => rfl)

/-- The model of `run_pipelined_commands` gives a result on every token list and in
every environment: the fuel is enough and no read of `pipes` is out of bounds. -/
theorem run_pipelined_commands_total (env : Env) (tokens : List String) :
    ∃ r, run_pipelined_commands env tokens = some r := by
  by_cases hne : tokens = []
  · subst hne
    obtain ⟨r, hr, _⟩ := run_nil env
    exact ⟨r, hr⟩
  · obtain ⟨r, hr, _⟩ := run_spec env tokens hne
    exact ⟨r, hr⟩

end Swish

namespace WordLengths

/-! ## Lemmas on `count_word_lengths` -/

theorem wrapInt_of_range (x : Int) (h1 : INT_MIN ≤ x) (h2 : x ≤ INT_MAX) : wrapInt x = x := by
  unfold wrapInt
  unfold INT_MIN at h1
  unfold INT_MAX at h2
  omega

theorem strlen_of_no_nul (w : List Nat) (h : 0 ∉ w) : strlen (w ++ [0]) = w.length := by
  induction w with
  | nil => simp [strlen]
  | cons x xs ih =>
    have hx : x ≠ 0 := fun hx => h (by simp [hx])
    have hxs : 0 ∉ xs := fun hxs => h (List.mem_cons_of_mem _ hxs)
    have := ih hxs
    simp only [strlen] at this ⊢
    simp [List.takeWhile_cons, hx, this]

theorem splitOnP_scan (p : Nat → Bool) (xs : List Nat) :
    xs.splitOnP p = xs.takeWhile (fun b => !p b) ::
      (match xs.dropWhile (fun b => !p b) with
        | [] => []
        | _ :: rest => rest.splitOnP p) := by
  induction xs with
  | nil => simp [List.splitOnP_nil]
  | cons x xs ih =>
    rw [List.splitOnP_cons]
    by_cases hx : p x = true
    · simp [hx, List.takeWhile_cons, List.dropWhile_cons]
    · have hx1 : p x = false := by simpa using hx
      rw [if_neg hx, ih]
      simp [hx1, List.takeWhile_cons, List.dropWhile_cons, List.modifyHead]

theorem fileWords_nil : fileWords [] = [] := by
  simp [fileWords, List.splitOnP_nil]

theorem fileWords_cons_space (x : Nat) (xs : List Nat) (h : isspace x = true) :
    fileWords (x :: xs) = fileWords xs := by
  simp [fileWords, List.splitOnP_cons, h]

theorem fileWords_dropWhile (s : List Nat) : fileWords (s.dropWhile isspace) = fileWords s := by
  induction s with
  | nil => rfl
  | cons x xs ih =>
    by_cases hx : isspace x = true
    · rw [List.dropWhile_cons_of_pos hx, ih, fileWords_cons_space x xs hx]
    · rw [List.dropWhile_cons_of_neg hx]

theorem fileWords_word (c : Nat) (cs : List Nat) (hc : isspace c = false) :
    fileWords (c :: cs) = (c :: cs).takeWhile (fun b => !isspace b) ::
      fileWords ((c :: cs).dropWhile (fun b => !isspace b)) := by
  have hne : ((c :: cs).takeWhile (fun b => !isspace b)).isEmpty = false := by
    simp [List.takeWhile_cons, hc]
  conv_lhs => rw [fileWords, splitOnP_scan, List.filter_cons]
  simp only [hne, Bool.not_false, if_true]
  congr 1
  cases hd : (c :: cs).dropWhile (fun b => !isspace b) with
  | nil => simp [fileWords_nil]
  | cons y ys =>
    have hy : isspace y = true := by
      have := List.head_dropWhile_not (fun b => !isspace b) (c :: cs) (by rw [hd]; simp)
      simpa [hd] using this
    simp only [fileWords_cons_space y ys hy]
    rfl

theorem fscanf_none (s : List Nat) (h : fscanf s = none) : fileWords s = [] := by
  unfold fscanf at h
  cases hd : s.dropWhile isspace with
  | nil => rw [← fileWords_dropWhile, hd, fileWords_nil]
  | cons c cs => simp [hd] at h

theorem fscanf_some (s w rest : List Nat) (h : fscanf s = some (w, rest)) :
    fileWords s = w :: fileWords rest ∧ w ≠ [] ∧ rest.length < s.length ∧
      (∀ b ∈ w, b ∈ s) ∧ (∀ b ∈ rest, b ∈ s) := by
  unfold fscanf at h
  cases hd : s.dropWhile isspace with
  | nil => simp [hd] at h
  | cons c cs =>
    simp only [hd, Option.some.injEq, Prod.mk.injEq] at h
    obtain ⟨hw, hr⟩ := h
    have hc : isspace c = false := by
      have := List.head_dropWhile_not isspace s (by rw [hd]; simp)
      simpa [hd] using this
    have hsub : ∀ b ∈ c :: cs, b ∈ s := by
      intro b hb
      rw [← hd] at hb
      exact (List.dropWhile_sublist isspace).subset hb
    have hlen : (c :: cs).length ≤ s.length := by
      rw [← hd]
      exact (List.dropWhile_sublist isspace).length_le
    refine ⟨?_, ?_, ?_, ?_, ?_⟩
    · rw [← fileWords_dropWhile, hd, fileWords_word c cs hc, hw, hr]
    · rw [← hw]
      simp [List.takeWhile_cons, hc]
    · rw [← hr]
      have h1 : ((c :: cs).dropWhile (fun b => !isspace b)).length ≤ cs.length := by
        rw [List.dropWhile_cons_of_pos (by simp [hc])]
        exact (List.dropWhile_sublist _).length_le
      simp only [List.length_cons] at hlen
      omega
    · intro b hb
      rw [← hw] at hb
      exact hsub b ((List.takeWhile_sublist _).subset hb)
    · intro b hb
      rw [← hr] at hb
      exact hsub b ((List.dropWhile_sublist _).subset hb)

theorem getD_set_self (counts : List Int) (i : Nat) (v : Int) (k : Nat) (hi : i < counts.length) :
    (counts.set i v).getD k 0 = if k = i then v else counts.getD k 0 := by
  by_cases hk : k = i
  · subst hk
    simp [List.getD_eq_getElem?_getD, hi]
  · have hne : i ≠ k := fun h => hk h.symm
    simp [List.getD_eq_getElem?_getD, List.getElem?_set_ne hne, hk]

theorem countLoop_spec : ∀ (fuel : Nat) (s : List Nat) (counts : List Int),
    s.length ≤ fuel → counts.length = 25 → 0 ∉ s →
    (∀ w ∈ fileWords s, w.length ≤ 25) →
    (∀ k, k < 25 → INT_MIN ≤ counts.getD k 0 ∧
      counts.getD k 0 + ((fileWords s).countP (fun w => w.length == k + 1) : Nat) ≤ INT_MAX) →
    ∃ c, countLoop fuel s counts = some c ∧ c.length = 25 ∧
      ∀ k, k < 25 →
        c.getD k 0 = counts.getD k 0 + ((fileWords s).countP (fun w => w.length == k + 1) : Nat)
  | 0, s, counts, hfuel, hlen, _, _, _ => by
    have hs : s = [] := List.length_eq_zero.mp (Nat.le_zero.mp hfuel)
    subst hs
    refine ⟨counts, rfl, hlen, ?_⟩
    intro k _
    simp [fileWords_nil]
  | fuel + 1, s, counts, hfuel, hlen, hnul, hwords, hrange => by
    cases hscan : fscanf s with
    | none =>
      refine ⟨counts, by simp [countLoop, hscan], hlen, ?_⟩
      intro k _
      simp [fscanf_none s hscan]
    | some wr =>
      obtain ⟨w, rest⟩ := wr
      obtain ⟨hfw, hwne, hrl, hwsub, hrsub⟩ := fscanf_some s w rest hscan
      have hwl : w.length ≤ 25 := hwords w (by rw [hfw]; exact List.mem_cons_self _ _)
      have hwpos : 0 < w.length := List.length_pos.mpr hwne
      have hw0 : 0 ∉ w := fun h => hnul (hwsub 0 h)
      have hstr : strlen (w ++ [0]) = w.length := strlen_of_no_nul w hw0
      have hidx : (((w.length : Nat) : Int) - 1).toNat = w.length - 1 := by omega
      have hidx0 : (0 : Int) ≤ ((w.length : Nat) : Int) - 1 := by omega
      have hget : counts[w.length - 1]? = some (counts.getD (w.length - 1) 0) := by
        rw [List.getD_eq_getElem?_getD, List.getElem?_eq_getElem (by omega)]
        simp
      have hr1 := hrange (w.length - 1) (by omega)
      have hcw : (fileWords s).countP (fun w1 => w1.length == w.length - 1 + 1)
          = (fileWords rest).countP (fun w1 => w1.length == w.length - 1 + 1) + 1 := by
        rw [hfw, List.countP_cons_of_pos]
        simp
        omega
      rw [hcw] at hr1
      have hwrap : wrapInt (counts.getD (w.length - 1) 0 + 1) = counts.getD (w.length - 1) 0 + 1 := by
        apply wrapInt_of_range
        · omega
        · push_cast at hr1
          omega
      obtain ⟨c, hc1, hc2, hc3⟩ := countLoop_spec fuel rest
        (counts.set (w.length - 1) (counts.getD (w.length - 1) 0 + 1))
        (by omega) (by simp [hlen]) (fun h => hnul (hrsub 0 h))
        (fun w1 hw1 => hwords w1 (by rw [hfw]; exact List.mem_cons_of_mem _ hw1))
        (by
          intro k hk
          rw [getD_set_self _ _ _ _ (by omega)]
          have hrk := hrange k hk
          rw [hfw, List.countP_cons] at hrk
          by_cases hkw : k = w.length - 1
          · subst hkw
            simp only [if_true]
            have : (w.length == w.length - 1 + 1) = true := by simp; omega
            simp only [this, if_true] at hrk
            push_cast at hrk
            omega
          · simp only [hkw, if_false]
            have : (w.length == k + 1) = false := by simp; omega
            simp only [this] at hrk
            simpa using hrk)
      refine ⟨c, ?_, hc2, ?_⟩
      · simp only [countLoop, hscan, MAX_WORD_LEN, hstr, increment, hidx0, hidx, hget, hwrap]
        simpa [hwl, List.getD_eq_getElem?_getD] using hc1
      · intro k hk
        rw [hc3 k hk, getD_set_self _ _ _ _ (by omega), hfw, List.countP_cons]
        by_cases hkw : k = w.length - 1
        · subst hkw
          have : (w.length == w.length - 1 + 1) = true := by simp; omega
          simp only [if_true, this]
          push_cast
          omega
        · have : (w.length == k + 1) = false := by simp; omega
          simp [hkw, this]

/-! ## Main results on `count_word_lengths` -/

/-- C10, counterexample: with `counts[0] = INT_MAX` and the one-word file `a`, the
function returns 0 and `counts[0]` ends at `INT_MIN`, not one higher; and on the file
of the single three-byte word `a\0b` (a NUL in the middle) it returns 0 having counted
a one-character word, leaving `counts[2]` unchanged. -/
theorem count_not_increased :
    count_word_lengths (some [97]) true (List.replicate 25 2147483647)
      = some (0, (-2147483648) :: List.replicate 24 2147483647) ∧
    count_word_lengths (some [97, 0, 98]) true (List.replicate 25 0)
      = some (0, 1 :: List.replicate 24 0) := by
  decide

/-- C10, amended: for a file that can be opened and closed, has no NUL byte and whose
whitespace-separated words each have between 1 and 25 characters, and a 25-entry
`counts` array of `int` in which no entry would pass `INT_MAX`, the function returns 0
and leaves every entry `k` (for `k < 25`) increased by exactly the number of words of
`k + 1` characters; the array still has its 25 entries. -/
theorem count_word_lengths_counts (bytes : List Nat) (counts : List Int)
    (hlen : counts.length = 25) (hnul : 0 ∉ bytes)
    (hwords : ∀ w ∈ fileWords bytes, 1 ≤ w.length ∧ w.length ≤ 25)
    (hrange : ∀ k, k < 25 → INT_MIN ≤ counts.getD k 0 ∧
      counts.getD k 0 + (wordsOfLength bytes (k + 1) : Nat) ≤ INT_MAX) :
    ∃ out, count_word_lengths (some bytes) true counts = some (0, out) ∧ out.length = 25 ∧
      ∀ k, k < 25 → out[k]? = some (counts.getD k 0 + (wordsOfLength bytes (k + 1) : Nat)) := by
  obtain ⟨c, hc1, hc2, hc3⟩ := countLoop_spec bytes.length bytes counts (le_refl _) hlen hnul
    (fun w hw => (hwords w hw).2) hrange
  refine ⟨c, by simp [count_word_lengths, hc1], hc2, ?_⟩
  intro k hk
  have hkc : k < c.length := by omega
  rw [List.getElem?_eq_getElem hkc]
  have := hc3 k hk
  rw [List.getD_eq_getElem?_getD, List.getElem?_eq_getElem hkc] at this
  simp only [Option.getD_some] at this
  rw [this]
  rfl

/-- Instance of the counting result: the file `ab`, `c`, `de` and an array of sevens. -/
theorem count_word_lengths_witness :
    ∃ out, count_word_lengths (some [97, 98, 32, 10, 99, 32, 100, 101]) true
        (List.replicate 25 7) = some (0, out) ∧ out.length = 25 ∧
      ∀ k, k < 25 → out[k]? = some ((List.replicate 25 (7 : Int)).getD k 0
        + (wordsOfLength [97, 98, 32, 10, 99, 32, 100, 101] (k + 1) : Nat)) :=
  count_word_lengths_counts [97, 98, 32, 10, 99, 32, 100, 101] (List.replicate 25 7)
    (by decide) (by decide) (by decide) (by decide)

end WordLengths
